import Mathlib

/-!
# Verification of the mesh-editing geometry core

Shallow embedding of `src/utils/geometry.ts` of the `react-three-mesh-editor`
repository, together with proofs of the claims about it.

Modelling conventions:
* JavaScript `number` (IEEE-754 double) is idealized as `ℚ`; all arithmetic
  in the source is rational, except `Math.sqrt` (inside `Vector3.normalize`),
  which is abstracted by an explicit parameter `msqrt : ℚ → ℚ` where its value
  can matter, and eliminated exactly where it cannot (see `findLoopCutPath`).
* A Three.js `BufferGeometry` is a `Geometry`: an optional position buffer
  (list of 3-vectors; the raw buffer is this list flattened) and an optional
  triangle index buffer.
* JavaScript `Map` objects are association lists (`mapGet`/`mapSet`/`mapPush`),
  `Set` objects are insertion-ordered duplicate-free lists (`setAdd`).
  JS `Map.set` overwrites the value of an existing key in place; lookups see
  exactly the same values in our model.
* The string keys `"x,y,z"` (from `positionKey`) and `"a-b"` (from `edgeKey`)
  of the source are modelled by the rounded coordinate triple and the ordered
  index pair respectively: JS number-to-string printing is injective, so two
  keys collide if and only if the modelled values are equal.
* Code that throws is embedded in `Except String`; a JS `TypeError` arising
  from a member access on `undefined` is an `.error` with a `TypeError` text.
* Mutating operations (`moveVertices`, `transformVerticesAroundCenter`) return
  the updated geometry.  Structural operations (`extrudeFace`,
  `executeLoopCut`) return a pair `(result, after)` where `after` is the state
  of the caller's input geometry object when the call returns: it is built by
  translating every buffer write the source performs, and since the source
  never writes into its input, `after` is the unchanged input.
* `computeVertexNormals` / `computeBoundingSphere` refresh derived caches
  (normals, bounds) that are not part of the position/index data the claims
  are about; they are not modelled.
-/

namespace MeshEditor

/-- A 3-vector of rational coordinates (idealized JS doubles). -/
structure Vec3 where
  x : ℚ
  y : ℚ
  z : ℚ
deriving DecidableEq

instance : Add Vec3 := ⟨fun a b => ⟨a.x + b.x, a.y + b.y, a.z + b.z⟩⟩

instance : Sub Vec3 := ⟨fun a b => ⟨a.x - b.x, a.y - b.y, a.z - b.z⟩⟩

instance : Neg Vec3 := ⟨fun a => ⟨-a.x, -a.y, -a.z⟩⟩

/-- Dot product. -/
def Vec3.dot (a b : Vec3) : ℚ :=
  a.x * b.x + a.y * b.y + a.z * b.z

/-- Cross product (`Vector3.cross` of three.js). -/
def Vec3.cross (a b : Vec3) : Vec3 :=
  ⟨a.y * b.z - a.z * b.y, a.z * b.x - a.x * b.z, a.x * b.y - a.y * b.x⟩

/-- A Three.js `BufferGeometry`: optional position attribute (list of raw
vertices) and optional triangle index attribute (flat list of indices,
read three at a time). -/
structure Geometry where
  position : Option (List Vec3)
  index : Option (List ℕ)
deriving DecidableEq

/-- `VertexData` of `src/types`: a deduplicated (unique) vertex. -/
structure VertexData where
  index : ℕ
  position : Vec3
  selected : Bool
  originalIndices : List ℕ
deriving DecidableEq

/-- `EdgeData` of `src/types`: an edge between two unique-vertex indices. -/
structure EdgeData where
  index : ℕ
  v1 : ℕ
  v2 : ℕ
  selected : Bool
deriving DecidableEq

/-- `FaceData` of `src/types`: a triangle of three unique-vertex indices. -/
structure FaceData where
  index : ℕ
  v1 : ℕ
  v2 : ℕ
  v3 : ℕ
  selected : Bool
deriving DecidableEq

/-- JS `Map.get`: first (and in all maps built here, only) binding of a key. -/
def mapGet {κ β : Type} [DecidableEq κ] (k : κ) : List (κ × β) → Option β
  | [] => none
  | (k', v) :: rest => if k' = k then some v else mapGet k rest

/-- JS `Map.set`: overwrite the binding in place if the key exists, else
append a new binding (JS maps keep insertion order of keys). -/
def mapSet {κ β : Type} [DecidableEq κ] (m : List (κ × β)) (k : κ) (v : β) :
    List (κ × β) :=
  match m with
  | [] => [(k, v)]
  | (k', v') :: rest =>
    if k' = k then (k', v) :: rest else (k', v') :: mapSet rest k v

/-- JS `Set.add`: append if not already present. -/
def setAdd {α : Type} [DecidableEq α] (s : List α) (a : α) : List α :=
  if a ∈ s then s else s ++ [a]

/-- `roundPosition` (geometry.ts line 8): round to 6 decimal places.
JS `Math.round` rounds half toward positive infinity:
`Math.round(x) = ⌊x + 1/2⌋`. -/
def roundPosition (v : ℚ) : ℚ :=
  (⌊v * 1000000 + 1 / 2⌋ : ℚ) / 1000000

/-- `positionKey` (geometry.ts line 16): the dedup key of a position.  The
source produces the string `"{r x},{r y},{r z}"`; we keep the rounded triple
itself, which is keyed identically (number printing is injective). -/
def positionKey (p : Vec3) : Vec3 :=
  ⟨roundPosition p.x, roundPosition p.y, roundPosition p.z⟩

/-- Result record of `extractVerticesWithMappings`. -/
structure GeometryMappings where
  uniqueVertices : List VertexData
  vertexIndexMap : List (ℕ × ℕ)
deriving DecidableEq

/-- First loop of `extractVerticesWithMappings` (geometry.ts lines 48-70):
walk the raw vertices in buffer order, keyed by rounded position; a fresh key
creates a new unique vertex with `originalIndices := [i]`, a seen key only
records the raw-to-unique mapping.  Arguments: remaining raw positions,
current raw index `i`, and the accumulated `uniqueVertices`,
`vertexIndexMap`, `positionToIndex`. -/
def extractPass1 :
    List Vec3 → ℕ → List VertexData → List (ℕ × ℕ) → List (Vec3 × ℕ) →
      List VertexData × List (ℕ × ℕ)
  | [], _, uv, vim, _ => (uv, vim)
  | p :: rest, i, uv, vim, pti =>
    match mapGet (positionKey p) pti with
    | some j => extractPass1 rest (i + 1) uv (vim ++ [(i, j)]) pti
    | none =>
      extractPass1 rest (i + 1)
        (uv ++ [{ index := uv.length, position := p, selected := false,
                  originalIndices := [i] }])
        (vim ++ [(i, uv.length)])
        (pti ++ [(positionKey p, uv.length)])

/-- Body of the second loop of `extractVerticesWithMappings` (lines 73-79):
append raw index `i` to `originalIndices` of unique vertex `j` unless already
present. -/
def addOriginalIndex (uv : List VertexData) (j i : ℕ) : List VertexData :=
  match uv[j]? with
  | none => uv
  | some v =>
    if i ∈ v.originalIndices then uv
    else uv.set j { v with originalIndices := v.originalIndices ++ [i] }

/-- Second loop of `extractVerticesWithMappings` (lines 73-79): for every raw
index, add it to its unique vertex's `originalIndices`. -/
def extractPass2 (vim : List (ℕ × ℕ)) (uv : List VertexData) (n : ℕ) :
    List VertexData :=
  (List.range n).foldl (fun acc i =>
    match mapGet i vim with
    | some j => addOriginalIndex acc j i
    | none => acc) uv

/-- Raw index `e` belongs to the `originalIndices` of the `j`-th unique
vertex (used to state the dedup partition property). -/
@[reducible]
def oiMem (uv : List VertexData) (j e : ℕ) : Prop :=
  ∃ v, uv[j]? = some v ∧ e ∈ v.originalIndices

/-- `extractVerticesWithMappings` (geometry.ts lines 39-82). -/
def extractVerticesWithMappings (g : Geometry) : GeometryMappings :=
  match g.position with
  | none => ⟨[], []⟩
  | some ps =>
    let r := extractPass1 ps 0 [] [] []
    ⟨extractPass2 r.2 r.1 ps.length, r.2⟩

/-- `extractVertices` (geometry.ts lines 90-92). -/
def extractVertices (g : Geometry) : List VertexData :=
  (extractVerticesWithMappings g).uniqueVertices

/-- One step of the `indicesToUpdate` collection of `moveVertices`
(geometry.ts lines 256-264): for a selected unique index, add all its
aliased raw buffer indices when a vertex table resolves it (the
`originalIndices` field is always present in our model, so the JS truthiness
test reduces to the vertex resolving), else the index itself.
Insertion-ordered and duplicate-free, like a JS `Set`. -/
def collectOne (vertices : Option (List VertexData)) (s : List ℕ)
    (index : ℕ) : List ℕ :=
  match vertices with
  | some vs =>
    match vs[index]? with
    | some v => v.originalIndices.foldl setAdd s
    | none => setAdd s index
  | none => setAdd s index

/-- The `indicesToUpdate` set of `moveVertices` (geometry.ts lines 254-264):
union over the selected unique indices of the `collectOne` contributions. -/
def collectIndicesToUpdate (vertexIndices : List ℕ)
    (vertices : Option (List VertexData)) : List ℕ :=
  vertexIndices.foldl (collectOne vertices) []

/-- One raw-buffer update of `moveVertices` (geometry.ts lines 266-271): read
the current coordinates at `i`, add the delta, write back.  An out-of-range
`i` is a no-op, as in JS, where the typed-array read yields `undefined` (so
NaNs) and the out-of-range `setXYZ` write is silently dropped. -/
def applyDelta (delta : Vec3) (ps : List Vec3) (i : ℕ) : List Vec3 :=
  match ps[i]? with
  | none => ps
  | some p => ps.set i (p + delta)

/-- `moveVertices` (geometry.ts lines 244-276).  Returns the updated
geometry; with no position attribute the call is a silent no-op. -/
def moveVertices (g : Geometry) (vertexIndices : List ℕ) (delta : Vec3)
    (vertices : Option (List VertexData)) : Geometry :=
  match g.position with
  | none => g
  | some ps =>
    let indicesToUpdate := collectIndicesToUpdate vertexIndices vertices
    { g with position := some (indicesToUpdate.foldl (applyDelta delta) ps) }

/-- A quaternion `{x, y, z, w}` as taken by `transformVerticesAroundCenter`. -/
structure Quat where
  x : ℚ
  y : ℚ
  z : ℚ
  w : ℚ
deriving DecidableEq

/-- One step of the `indicesToUpdate` collection of
`transformVerticesAroundCenter` (geometry.ts lines 344-352): record raw
buffer index to unique index mappings, JS `Map` semantics. -/
def collectOneMap (vertices : Option (List VertexData)) (m : List (ℕ × ℕ))
    (index : ℕ) : List (ℕ × ℕ) :=
  match vertices with
  | some vs =>
    match vs[index]? with
    | some v =>
      v.originalIndices.foldl (fun m' origIndex => mapSet m' origIndex index) m
    | none => mapSet m index index
  | none => mapSet m index index

/-- The `indicesToUpdate` map of `transformVerticesAroundCenter` (geometry.ts
lines 342-352): raw buffer index to unique index, JS `Map` semantics. -/
def collectIndicesToUpdateMap (vertexIndices : List ℕ)
    (vertices : Option (List VertexData)) : List (ℕ × ℕ) :=
  vertexIndices.foldl (collectOneMap vertices) []

/-- Loop body of `transformVerticesAroundCenter` (geometry.ts lines 355-402):
take the initial position (snapshot by unique index if supplied, else the
current buffer value), translate by `-center`, scale componentwise, rotate by
the quaternion with the optimized two-step formula of the source, translate
back, and write the result.  As in `applyDelta`, a raw index out of range of
the buffer is a no-op. -/
def transformOne (center : Vec3) (rotation : Quat) (scale : Vec3)
    (initialPositions : Option (List (ℕ × Vec3)))
    (ps : List Vec3) (origIndex uniqueIndex : ℕ) : List Vec3 :=
  match ps[origIndex]? with
  | none => ps
  | some cur =>
    let initial :=
      match initialPositions with
      | some snap =>
        match mapGet uniqueIndex snap with
        | some pos => pos
        | none => cur
      | none => cur
    let x := (initial.x - center.x) * scale.x
    let y := (initial.y - center.y) * scale.y
    let z := (initial.z - center.z) * scale.z
    let qx := rotation.x
    let qy := rotation.y
    let qz := rotation.z
    let qw := rotation.w
    let ix := qw * x + qy * z - qz * y
    let iy := qw * y + qz * x - qx * z
    let iz := qw * z + qx * y - qy * x
    let iw := -qx * x - qy * y - qz * z
    let rx := ix * qw + iw * -qx + iy * -qz - iz * -qy
    let ry := iy * qw + iw * -qy + iz * -qx - ix * -qz
    let rz := iz * qw + iw * -qz + ix * -qy - iy * -qx
    ps.set origIndex ⟨rx + center.x, ry + center.y, rz + center.z⟩

/-- `transformVerticesAroundCenter` (geometry.ts lines 329-407). -/
def transformVerticesAroundCenter (g : Geometry) (vertexIndices : List ℕ)
    (center : Vec3) (rotation : Quat) (scale : Vec3)
    (vertices : Option (List VertexData))
    (initialPositions : Option (List (ℕ × Vec3))) : Geometry :=
  match g.position with
  | none => g
  | some ps =>
    let indicesToUpdate := collectIndicesToUpdateMap vertexIndices vertices
    { g with
      position := some (indicesToUpdate.foldl (fun acc p =>
        transformOne center rotation scale initialPositions acc p.1 p.2) ps) }

/-- Scalar multiplication on `Vec3`. -/
def Vec3.smul (c : ℚ) (v : Vec3) : Vec3 :=
  ⟨c * v.x, c * v.y, c * v.z⟩

/-- `Vector3.normalize` of three.js: divide by the length (abstracted square
root `msqrt` of the squared length); three.js divides by `length || 1`, so a
zero length leaves the vector unchanged. -/
def normalize (msqrt : ℚ → ℚ) (v : Vec3) : Vec3 :=
  let len := msqrt (Vec3.dot v v)
  if len = 0 then v else ⟨v.x / len, v.y / len, v.z / len⟩

/-- `calculateFaceNormal` (geometry.ts lines 425-433). -/
def calculateFaceNormal (msqrt : ℚ → ℚ) (v1 v2 v3 : Vec3) : Vec3 :=
  normalize msqrt (Vec3.cross (v2 - v1) (v3 - v1))

/-- `ExtrudeFaceResult` (geometry.ts lines 412-419). -/
structure ExtrudeFaceResult where
  geometry : Geometry
  extrudedVertexBufferIndices : List ℕ
  extrudedFaceIndex : ℕ
deriving DecidableEq

/-- The index list `extrudeFace` and `executeLoopCut` operate on (geometry.ts
lines 543-552 and 904-915): the index attribute if present, else the implicit
sequential indices `0, …, count-1` of a non-indexed geometry.  (The source
synthesizes the latter in a `Uint16Array`, which would wrap above 65535 raw
vertices; the claims under verification never read the wrapped values.) -/
def oldIndicesOf (g : Geometry) (oldVertexCount : ℕ) : List ℕ :=
  match g.index with
  | some idx => idx
  | none => List.range oldVertexCount

/-- The new position buffer of `extrudeFace` (geometry.ts lines 476-514):
the old buffer with the three extruded vertices (the face vertices moved
along the face normal by `distance`) appended at the end. -/
def extrudedPositions (msqrt : ℚ → ℚ) (ps : List Vec3) (distance : ℚ)
    (v1 v2 v3 : VertexData) : List Vec3 :=
  ps ++
    [v1.position + Vec3.smul distance
        (calculateFaceNormal msqrt v1.position v2.position v3.position),
     v2.position + Vec3.smul distance
        (calculateFaceNormal msqrt v1.position v2.position v3.position),
     v3.position + Vec3.smul distance
        (calculateFaceNormal msqrt v1.position v2.position v3.position)]

/-- The original-buffer index of a face corner (geometry.ts lines 517-535):
first entry of the vertex's `originalIndices`, else the fallback unique
index. -/
def origIndexOf (v : VertexData) (fallback : ℕ) : ℕ :=
  match v.originalIndices with
  | o :: _ => o
  | [] => fallback

/-- The 18 side-face index entries of `extrudeFace` (geometry.ts
lines 568-594): three quads, each split into two triangles. -/
def extrudeSideIndices (o1 o2 o3 n1 n2 n3 : ℕ) : List ℕ :=
  [o1, o2, n2,
   o1, n2, n1,
   o2, o3, n3,
   o2, n3, n2,
   o3, o1, n1,
   o3, n1, n3]

/-- `extrudeFace` (geometry.ts lines 449-612), embedded in `Except`: the
source throws on a missing face, then on a missing position attribute (in
that order), and dereferences the three face vertices in the supplied vertex
table (a JS `TypeError` if one of them is `undefined`).  The result is paired
with the state of the caller's input geometry at return time; the source
performs no write into its input, so that state is the input itself. -/
def extrudeFace (msqrt : ℚ → ℚ) (g : Geometry) (faceIndex : ℕ) (distance : ℚ)
    (vertices : List VertexData) (faces : List FaceData) :
    Except String (ExtrudeFaceResult × Geometry) :=
  match faces[faceIndex]? with
  | none => .error ("Face index " ++ toString faceIndex ++ " not found")
  | some face =>
    match g.position with
    | none => .error "Geometry has no position attribute"
    | some ps =>
      match vertices[face.v1]?, vertices[face.v2]?, vertices[face.v3]? with
      | some v1, some v2, some v3 =>
        .ok ({ geometry :=
                ⟨some (extrudedPositions msqrt ps distance v1 v2 v3),
                 some (oldIndicesOf g ps.length ++
                   [ps.length, ps.length + 1, ps.length + 2] ++
                   extrudeSideIndices (origIndexOf v1 face.v1)
                     (origIndexOf v2 face.v2) (origIndexOf v3 face.v3)
                     ps.length (ps.length + 1) (ps.length + 2))⟩,
               extrudedVertexBufferIndices :=
                 [ps.length, ps.length + 1, ps.length + 2],
               extrudedFaceIndex := (oldIndicesOf g ps.length).length / 3 },
             g)
      | _, _, _ => .error "TypeError: cannot read properties of undefined"

/-- `LoopCutPoint` (geometry.ts lines 617-626); `ev1, ev2` are the
`edgeVertices` pair. -/
structure LoopCutPoint where
  position : Vec3
  edgeIndex : ℕ
  ev1 : ℕ
  ev2 : ℕ
  t : ℚ
deriving DecidableEq

/-- `LoopCutPath` (geometry.ts lines 631-636). -/
structure LoopCutPath where
  points : List LoopCutPoint
  isClosed : Bool
deriving DecidableEq

/-- `edgeKey` (geometry.ts lines 667-669): canonical key of an unordered
vertex pair.  The source builds the string `"min-max"`; we keep the ordered
pair, which is keyed identically. -/
def edgeKey (a b : ℕ) : ℕ × ℕ :=
  if a < b then (a, b) else (b, a)

/-- Append one face index to the bucket of an edge key, JS `Map` semantics
(the `addEdgeToFace` closure of geometry.ts lines 645-651). -/
def mapPush {κ : Type} [DecidableEq κ] (m : List (κ × List ℕ)) (k : κ)
    (v : ℕ) : List (κ × List ℕ) :=
  match m with
  | [] => [(k, [v])]
  | (k', vs) :: rest =>
    if k' = k then (k', vs ++ [v]) :: rest else (k', vs) :: mapPush rest k v

/-- `buildEdgeToFacesMap` (geometry.ts lines 642-661): each face registers
its `index` field under its three side keys. -/
def buildEdgeToFacesMap (faces : List FaceData) : List ((ℕ × ℕ) × List ℕ) :=
  faces.foldl (fun m face =>
    mapPush (mapPush (mapPush m (edgeKey face.v1 face.v2) face.index)
        (edgeKey face.v2 face.v3) face.index)
      (edgeKey face.v3 face.v1) face.index) []

/-- The `CandidateEdge` record of `findLoopCutPath` (geometry.ts
lines 716-721). -/
structure CandidateEdge where
  edgeIndex : ℕ
  edge : EdgeData
  position : Vec3
  tValue : ℚ
deriving DecidableEq

/-- Linear interpolation `p1 + (p2 - p1) * t`, as written componentwise in
the source. -/
def Vec3.lerp (a b : Vec3) (t : ℚ) : Vec3 :=
  a + Vec3.smul t (b - a)

/-- The signed distance `d` (computed against the raw, unnormalized edge
direction) is beyond the positive tolerance.  The source compares the
distance against the normalized direction with `d > 0.0001`; dividing by the
positive length `L = sqrt lenSq` scales the distance by `1/L`, and
`dRaw / L > 10⁻⁴  ↔  dRaw > 0 ∧ dRaw² · 10⁸ > lenSq`, which is exact over
`ℚ`.  For a degenerate start edge (`lenSq = 0`) three.js `normalize` keeps
the zero vector, every signed distance is `0`, and this predicate is false —
also matching the source. -/
def beyondPos (d lenSq : ℚ) : Bool :=
  decide (0 < d) && decide (lenSq < d * d * 100000000)

/-- Negative-side counterpart of `beyondPos` (`d < -0.0001` in the source). -/
def beyondNeg (d lenSq : ℚ) : Bool :=
  decide (d < 0) && decide (lenSq < d * d * 100000000)

/-- The crossing test of geometry.ts line 739: the two signed distances have
opposite signs beyond the `1e-4` tolerance. -/
def crossesPlane (d1 d2 lenSq : ℚ) : Bool :=
  (beyondPos d1 lenSq && beyondNeg d2 lenSq) ||
    (beyondNeg d1 lenSq && beyondPos d2 lenSq)

/-- The candidate-collection loop of `findLoopCutPath` (geometry.ts
lines 725-755): edges whose endpoints resolve and whose endpoints lie on
opposite sides of the cutting plane; `tIntersect = |d1| / (|d1| + |d2|)` is
unchanged by the normalization of the plane normal, so raw distances give the
exact source value. -/
def collectCandidates (vertices : List VertexData) (planePoint dirRaw : Vec3)
    (lenSq : ℚ) : List EdgeData → List CandidateEdge
  | [] => []
  | e :: rest =>
    match vertices[e.v1]?, vertices[e.v2]? with
    | some a, some b =>
      let p1 := a.position
      let p2 := b.position
      let d1 := Vec3.dot (p1 - planePoint) dirRaw
      let d2 := Vec3.dot (p2 - planePoint) dirRaw
      if crossesPlane d1 d2 lenSq then
        let tIntersect := |d1| / (|d1| + |d2|)
        { edgeIndex := e.index, edge := e,
          position := Vec3.lerp p1 p2 tIntersect, tValue := tIntersect } ::
          collectCandidates vertices planePoint dirRaw lenSq rest
      else collectCandidates vertices planePoint dirRaw lenSq rest
    | _, _ => collectCandidates vertices planePoint dirRaw lenSq rest

/-- The full candidate list of `findLoopCutPath` for a given start edge
(geometry.ts lines 693-755): empty when an endpoint of the start edge does
not resolve. -/
def loopCutCandidates (startEdge : EdgeData) (edges : List EdgeData)
    (vertices : List VertexData) (t : ℚ) : List CandidateEdge :=
  match vertices[startEdge.v1]?, vertices[startEdge.v2]? with
  | some a, some b =>
    let v1Pos := a.position
    let v2Pos := b.position
    let dirRaw := v2Pos - v1Pos
    let lenSq := Vec3.dot dirRaw dirRaw
    let planePoint := Vec3.lerp v1Pos v2Pos t
    collectCandidates vertices planePoint dirRaw lenSq edges
  | _, _ => []

/-- The inner candidate search of the ring traversal (geometry.ts
lines 794-815): among the three sides of one adjacent face, skip the current
edge's key and return the first unused candidate with a matching key. -/
def findNextInFace (candidates : List CandidateEdge) (used : List ℕ)
    (currentKey : ℕ × ℕ) (face : FaceData) : Option CandidateEdge :=
  [edgeKey face.v1 face.v2, edgeKey face.v2 face.v3,
    edgeKey face.v3 face.v1].findSome? (fun fk =>
    if fk = currentKey then none
    else candidates.find? (fun c =>
      !used.contains c.edgeIndex && (edgeKey c.edge.v1 c.edge.v2 == fk)))

/-- The outer candidate search over the faces adjacent to the current edge
(geometry.ts lines 789-818).  The source reads `faces[faceIdx]` where
`faceIdx` is an `index` field recorded in the edge-to-faces map; an
out-of-range read dereferences `undefined` and throws. -/
def findNextCandidate (faces : List FaceData) (candidates : List CandidateEdge)
    (used : List ℕ) (currentKey : ℕ × ℕ) :
    List ℕ → Except String (Option CandidateEdge)
  | [] => .ok none
  | fIdx :: rest =>
    match faces[fIdx]? with
    | none => .error "TypeError: cannot read properties of undefined"
    | some face =>
      match findNextInFace candidates used currentKey face with
      | some c => .ok (some c)
      | none => findNextCandidate faces candidates used currentKey rest

/-- The ring-ordering `while` loop of `findLoopCutPath` (geometry.ts
lines 766-821), with explicit fuel.  One iteration: stop when there is no
current candidate or it was already used; otherwise mark it used, emit its
cut point, and search the adjacent faces for the next unused candidate.
Fuel `candidates.length` is proved sufficient (the loop result is unchanged
by any larger fuel), which is the termination argument for the unbounded
source loop. -/
def ringLoop (faces : List FaceData) (candidates : List CandidateEdge)
    (edgeToFaces : List ((ℕ × ℕ) × List ℕ)) :
    ℕ → List ℕ → Option CandidateEdge → Except String (List LoopCutPoint)
  | _, _, none => .ok []
  | 0, _, some _ => .ok []
  | fuel + 1, used, some c =>
    if c.edgeIndex ∈ used then .ok []
    else
      let used' := used ++ [c.edgeIndex]
      let pt : LoopCutPoint :=
        ⟨c.position, c.edgeIndex, c.edge.v1, c.edge.v2, c.tValue⟩
      let currentKey := edgeKey c.edge.v1 c.edge.v2
      let adjacentFaces := (mapGet currentKey edgeToFaces).getD []
      match findNextCandidate faces candidates used' currentKey adjacentFaces with
      | .error e => .error e
      | .ok next =>
        match ringLoop faces candidates edgeToFaces fuel used' next with
        | .error e => .error e
        | .ok rest => .ok (pt :: rest)

/-- The number of distinct candidate edge indices not yet marked used: the
decreasing measure of the ring-ordering loop. -/
def unusedCount (candidates : List CandidateEdge) (used : List ℕ) : ℕ :=
  (((candidates.map (fun c => c.edgeIndex)).dedup).filter
    (fun i => decide (i ∉ used))).length

/-- `findLoopCutPath` (geometry.ts lines 686-827). -/
def findLoopCutPath (startEdge : EdgeData) (edges : List EdgeData)
    (faces : List FaceData) (vertices : List VertexData) (t : ℚ) :
    Except String LoopCutPath :=
  match vertices[startEdge.v1]?, vertices[startEdge.v2]? with
  | some _, some _ =>
    let candidates := loopCutCandidates startEdge edges vertices t
    if candidates.length = 0 then .ok ⟨[], false⟩
    else
      let edgeToFaces := buildEdgeToFacesMap faces
      match ringLoop faces candidates edgeToFaces candidates.length []
          candidates.head? with
      | .error e => .error e
      | .ok pts =>
        .ok ⟨pts, (pts.length == candidates.length) && decide (2 < pts.length)⟩
  | _, _ => .ok ⟨[], false⟩

/-- `LoopCutResult` (geometry.ts lines 832-837). -/
structure LoopCutResult where
  geometry : Geometry
  newVertexIndices : List ℕ
deriving DecidableEq

/-- The `toUniqueIndex` closure of `executeLoopCut` (geometry.ts
lines 918-920). -/
def toUniqueIndex (vim : List (ℕ × ℕ)) (rawIndex : ℕ) : ℕ :=
  (mapGet rawIndex vim).getD rawIndex

/-- The per-triangle body of the face-splitting loop of `executeLoopCut`
(geometry.ts lines 923-990): returns the indices pushed for one original
triangle `(v1, v2, v3)`.  The source assigns the sentinel `-1` to the unused
`newVi` bindings in the two-cut branch; no branch reads a sentinel, so the
lookups are guarded here exactly where the source reads them. -/
def processTriangle (vim : List (ℕ × ℕ)) (cutEdges : List (ℕ × ℕ))
    (edgeToNewVertex : List ((ℕ × ℕ) × ℕ)) (v1 v2 v3 : ℕ) : List ℕ :=
  let u1 := toUniqueIndex vim v1
  let u2 := toUniqueIndex vim v2
  let u3 := toUniqueIndex vim v3
  let edge1Key := edgeKey u1 u2
  let edge2Key := edgeKey u2 u3
  let edge3Key := edgeKey u3 u1
  let edge1Cut := cutEdges.contains edge1Key
  let edge2Cut := cutEdges.contains edge2Key
  let edge3Cut := cutEdges.contains edge3Key
  let cutCount := (if edge1Cut then 1 else 0) + (if edge2Cut then 1 else 0) +
    (if edge3Cut then 1 else 0)
  if cutCount = 0 then
    [v1, v2, v3]
  else if cutCount = 2 then
    let newV1 := (mapGet edge1Key edgeToNewVertex).getD 0
    let newV2 := (mapGet edge2Key edgeToNewVertex).getD 0
    let newV3 := (mapGet edge3Key edgeToNewVertex).getD 0
    if edge1Cut && edge2Cut then
      [v1, newV1, v3, newV1, newV2, v3, newV1, v2, newV2]
    else if edge2Cut && edge3Cut then
      [v1, v2, newV2, v1, newV2, newV3, newV2, v3, newV3]
    else if edge1Cut && edge3Cut then
      [v2, v3, newV3, v2, newV3, newV1, newV1, newV3, v1]
    else []
  else if cutCount = 1 then
    if edge1Cut then
      let newV := (mapGet edge1Key edgeToNewVertex).getD 0
      [v1, newV, v3, newV, v2, v3]
    else if edge2Cut then
      let newV := (mapGet edge2Key edgeToNewVertex).getD 0
      [v1, v2, newV, v1, newV, v3]
    else
      let newV := (mapGet edge3Key edgeToNewVertex).getD 0
      [v1, v2, newV, newV, v3, v1]
  else
    [v1, v2, v3]

/-- The face-splitting loop of `executeLoopCut` (geometry.ts lines 923-990):
the flat index list is read three entries at a time.  (A trailing partial
triple — impossible for a well-formed triangle list — is dropped; the source
would read `undefined` there.  The theorems assume a length divisible by
three.) -/
def processTriangles (vim : List (ℕ × ℕ)) (cutEdges : List (ℕ × ℕ))
    (edgeToNewVertex : List ((ℕ × ℕ) × ℕ)) : List ℕ → List ℕ
  | v1 :: v2 :: v3 :: rest =>
    processTriangle vim cutEdges edgeToNewVertex v1 v2 v3 ++
      processTriangles vim cutEdges edgeToNewVertex rest
  | _ => []

/-- The triangles of a flat index list, read three entries at a time (used
to state what the per-triangle loop produces). -/
def triples : List ℕ → List (ℕ × ℕ × ℕ)
  | v1 :: v2 :: v3 :: rest => (v1, v2, v3) :: triples rest
  | _ => []

/-- `executeLoopCut` (geometry.ts lines 851-1003).  As for `extrudeFace`,
the result is paired with the (unchanged) state of the caller's input
geometry at return time.  The `_vertices` and `_faces` parameters are unused
in the source. -/
def executeLoopCut (g : Geometry) (loopCutPath : LoopCutPath)
    (_vertices : List VertexData) (_faces : List FaceData) :
    Except String (LoopCutResult × Geometry) :=
  match g.position with
  | none => .error "Geometry has no position attribute"
  | some ps =>
    let oldVertexCount := ps.length
    let vim := (extractVerticesWithMappings g).vertexIndexMap
    let newPositions := ps ++ loopCutPath.points.map (·.position)
    let edgeToNewVertex := loopCutPath.points.enum.foldl (fun m p =>
      mapSet m (edgeKey p.2.ev1 p.2.ev2) (oldVertexCount + p.1)) []
    let newVertexIndices :=
      (List.range loopCutPath.points.length).map (fun i => oldVertexCount + i)
    let cutEdges := loopCutPath.points.map (fun p => edgeKey p.ev1 p.ev2)
    let oldIndices := oldIndicesOf g oldVertexCount
    let newIndices := processTriangles vim cutEdges edgeToNewVertex oldIndices
    .ok ({ geometry := ⟨some newPositions, some newIndices⟩,
           newVertexIndices := newVertexIndices }, g)

/-- `EdgeLoopValidation`, the return shape of `validateEdgeLoop` as declared
by the repository's docs (`edge-loop-face-creation.md`): validity flag,
ordered vertex cycle, optional error string. -/
structure EdgeLoopValidation where
  isValid : Bool
  orderedVertices : List ℕ
  error : Option String
deriving DecidableEq

/-- Modelled from the spec: the induced subgraph of `validateEdgeLoop`
(§4.5), whose implementation is not in `src/` (only its caller and docs
are).  The selected edge indices are resolved in the edge table. -/
def selectedEdges (selectedEdgeIndices : List ℕ) (edges : List EdgeData) :
    List EdgeData :=
  selectedEdgeIndices.filterMap (fun i => edges[i]?)

/-- Modelled from the spec: one endpoint-count increment of the
vertex-to-incident-edge-count map of `validateEdgeLoop` (§4.5). -/
def bumpDegree (m : List (ℕ × ℕ)) (v : ℕ) : List (ℕ × ℕ) :=
  mapSet m v ((mapGet v m).getD 0 + 1)

/-- Modelled from the spec: the vertex-to-incident-edge-count map over the
induced subgraph of `validateEdgeLoop` (§4.5): every selected edge bumps
both endpoints. -/
def edgeLoopDegrees (sel : List EdgeData) : List (ℕ × ℕ) :=
  sel.foldl (fun m e => bumpDegree (bumpDegree m e.v1) e.v2) []

/-- Reference degree count of a vertex in an edge list (used to state what
the degree map computes). -/
def degreeOf (v : ℕ) : List EdgeData → ℕ
  | [] => 0
  | e :: rest =>
    (if e.v1 = v then 1 else 0) + (if e.v2 = v then 1 else 0) + degreeOf v rest

/-- Modelled from the spec: the walk of `validateEdgeLoop` (§4.5) starts
"from any vertex"; deterministically, the first endpoint of the first
selected edge. -/
def startVertex (sel : List EdgeData) : ℕ :=
  ((sel.head?).map (fun e => e.v1)).getD 0

/-- Modelled from the spec: the loop walk of `validateEdgeLoop` (§4.5) over
the indexed selected edges: at each step take an unused selected edge
incident to the current vertex and move to its other endpoint, recording the
visited vertices; stop early when stuck.  Returns the visited vertices (one
per traversed edge) and the final vertex. -/
def walkEdges (sel : List (ℕ × EdgeData)) :
    ℕ → ℕ → List ℕ → List ℕ × ℕ
  | 0, cur, _ => ([], cur)
  | steps + 1, cur, used =>
    match sel.find? (fun ie =>
        !used.contains ie.1 && (ie.2.v1 == cur || ie.2.v2 == cur)) with
    | none => ([], cur)
    | some ie =>
      let next := if ie.2.v1 = cur then ie.2.v2 else ie.2.v1
      let r := walkEdges sel steps next (used ++ [ie.1])
      (cur :: r.1, r.2)

/-- Modelled from the spec: `validateEdgeLoop` (§4.5), whose implementation
is code of this repository that is not under `src/`.  Guards: "No edges
selected" for 0 selected edges, "Need at least 3 edges" for 1-2; then the
degree check over the induced subgraph ("Vertex X connected to Y edges" for
the first vertex of degree other than 2); then the walk, which must return
to the start after visiting exactly `selectedEdgeIndices.length` edges, else
"Edges do not form a closed loop". -/
def validateEdgeLoop (selectedEdgeIndices : List ℕ) (edges : List EdgeData) :
    EdgeLoopValidation :=
  if selectedEdgeIndices.length = 0 then
    ⟨false, [], some "No edges selected"⟩
  else if selectedEdgeIndices.length < 3 then
    ⟨false, [], some "Need at least 3 edges"⟩
  else
    let sel := selectedEdges selectedEdgeIndices edges
    let degrees := edgeLoopDegrees sel
    match degrees.find? (fun p => p.2 != 2) with
    | some p =>
      ⟨false, [], some ("Vertex " ++ toString p.1 ++ " connected to " ++
        toString p.2 ++ " edges")⟩
    | none =>
      let start := startVertex sel
      let w := walkEdges sel.enum selectedEdgeIndices.length start []
      if w.1.length = selectedEdgeIndices.length ∧ w.2 = start then
        ⟨true, w.1, none⟩
      else
        ⟨false, [], some "Edges do not form a closed loop"⟩

/-- The walk `validateEdgeLoop` performs, as a standalone function: traverse
the selected subgraph from the start vertex for
`selectedEdgeIndices.length` steps. -/
def loopWalk (selectedEdgeIndices : List ℕ) (edges : List EdgeData) :
    List ℕ × ℕ :=
  walkEdges (selectedEdges selectedEdgeIndices edges).enum
    selectedEdgeIndices.length
    (startVertex (selectedEdges selectedEdgeIndices edges)) []

/-! ## Concrete instances

Small meshes used to instantiate the theorems on closed inputs. -/

/-- A square-root stand-in for concrete runs: no claim below depends on the
values `Math.sqrt` returns, so any function instantiates the `msqrt`
parameter. -/
def mzero : ℚ → ℚ := fun _ => 0

/-- A single-triangle indexed geometry. -/
def triGeometry : Geometry :=
  ⟨some [⟨0, 0, 0⟩, ⟨1, 0, 0⟩, ⟨0, 1, 0⟩], some [0, 1, 2]⟩

/-- Vertex table of `triGeometry`. -/
def triVertices : List VertexData :=
  [⟨0, ⟨0, 0, 0⟩, false, [0]⟩, ⟨1, ⟨1, 0, 0⟩, false, [1]⟩,
   ⟨2, ⟨0, 1, 0⟩, false, [2]⟩]

/-- Face table of `triGeometry`. -/
def triFaces : List FaceData := [⟨0, 0, 1, 2, false⟩]

/-- The eight corners of the unit cube centered at the origin. -/
def cubeCorners : List Vec3 :=
  [⟨-1/2, -1/2, -1/2⟩, ⟨1/2, -1/2, -1/2⟩, ⟨1/2, 1/2, -1/2⟩, ⟨-1/2, 1/2, -1/2⟩,
   ⟨-1/2, -1/2, 1/2⟩, ⟨1/2, -1/2, 1/2⟩, ⟨1/2, 1/2, 1/2⟩, ⟨-1/2, 1/2, 1/2⟩]

/-- Triangle index buffer of a unit cube: 12 triangles over the 8 corners. -/
def cubeIndex : List ℕ :=
  [0, 2, 1, 0, 3, 2, 4, 5, 6, 4, 6, 7, 0, 1, 5, 0, 5, 4,
   2, 3, 7, 2, 7, 6, 0, 4, 7, 0, 7, 3, 1, 2, 6, 1, 6, 5]

/-- A unit cube as an indexed geometry (8 raw vertices, 12 triangles). -/
def cubeGeometry : Geometry := ⟨some cubeCorners, some cubeIndex⟩

/-- Vertex table of `cubeGeometry`. -/
def cubeVertices : List VertexData :=
  (cubeCorners.enum.map fun p => ⟨p.1, p.2, false, [p.1]⟩)

/-- Face table of `cubeGeometry`. -/
def cubeFaces : List FaceData :=
  [⟨0, 0, 2, 1, false⟩, ⟨1, 0, 3, 2, false⟩, ⟨2, 4, 5, 6, false⟩,
   ⟨3, 4, 6, 7, false⟩, ⟨4, 0, 1, 5, false⟩, ⟨5, 0, 5, 4, false⟩,
   ⟨6, 2, 3, 7, false⟩, ⟨7, 2, 7, 6, false⟩, ⟨8, 0, 4, 7, false⟩,
   ⟨9, 0, 7, 3, false⟩, ⟨10, 1, 2, 6, false⟩, ⟨11, 1, 6, 5, false⟩]

/-- A two-triangle strip over the unit square (vertices at the corners). -/
def stripGeometry : Geometry :=
  ⟨some [⟨0, 0, 0⟩, ⟨1, 0, 0⟩, ⟨0, 1, 0⟩, ⟨1, 1, 0⟩], some [0, 1, 3, 0, 3, 2]⟩

/-- Vertex table of `stripGeometry`. -/
def stripVertices : List VertexData :=
  [⟨0, ⟨0, 0, 0⟩, false, [0]⟩, ⟨1, ⟨1, 0, 0⟩, false, [1]⟩,
   ⟨2, ⟨0, 1, 0⟩, false, [2]⟩, ⟨3, ⟨1, 1, 0⟩, false, [3]⟩]

/-- Edge table of `stripGeometry` (without the diagonal). -/
def stripEdges : List EdgeData :=
  [⟨0, 0, 1, false⟩, ⟨1, 2, 3, false⟩, ⟨2, 0, 2, false⟩, ⟨3, 1, 3, false⟩]

/-- Face table of `stripGeometry`. -/
def stripFaces : List FaceData := [⟨0, 0, 1, 3, false⟩, ⟨1, 0, 3, 2, false⟩]

/-- The bottom edge of `stripGeometry`, used as a loop-cut start edge. -/
def stripStartEdge : EdgeData := ⟨0, 0, 1, false⟩

/-- A geometry whose three raw vertices occupy two distinct positions. -/
def dedupGeometry : Geometry :=
  ⟨some [⟨0, 0, 0⟩, ⟨1, 0, 0⟩, ⟨0, 0, 0⟩], none⟩

/-- A one-vertex geometry used to exhibit the stale-snapshot behaviour of
`transformVerticesAroundCenter`. -/
def snapGeometry : Geometry := ⟨some [⟨5, 5, 5⟩], none⟩

/-- The three edges of a triangle, a valid edge loop. -/
def triEdgeTable : List EdgeData :=
  [⟨0, 0, 1, false⟩, ⟨1, 1, 2, false⟩, ⟨2, 2, 0, false⟩]

/-! ## Helper lemmas -/

@[simp]
lemma Vec3.add_def (a b : Vec3) :
    a + b = ⟨a.x + b.x, a.y + b.y, a.z + b.z⟩ := rfl

@[simp]
lemma Vec3.neg_def (a : Vec3) : -a = ⟨-a.x, -a.y, -a.z⟩ := rfl

@[simp]
lemma Vec3.sub_def (a b : Vec3) :
    a - b = ⟨a.x - b.x, a.y - b.y, a.z - b.z⟩ := rfl

lemma Vec3.add_neg_cancel_right (a d : Vec3) : a + d + -d = a := by
  cases a
  cases d
  simp

lemma list_set_self {α : Type} (l : List α) (i : ℕ) (a : α)
    (h : l[i]? = some a) : l.set i a = l := by
  apply List.ext_getElem?
  intro n
  rcases eq_or_ne n i with rfl | hne
  · rw [List.getElem?_set_self', h]
    rfl
  · rw [List.getElem?_set_ne hne.symm]

lemma applyDelta_getElem? (d : Vec3) (ps : List Vec3) (i p : ℕ) :
    (applyDelta d ps i)[p]? =
      if p = i then (ps[p]?).map (· + d) else ps[p]? := by
  unfold applyDelta
  rcases eq_or_ne p i with rfl | hne
  · cases hc : ps[p]? with
    | none => simp [hc]
    | some q => simp [hc, List.getElem?_set_self', Option.map]
  · cases hc : ps[i]? with
    | none => simp [hne]
    | some q => simp [hne, List.getElem?_set_ne hne.symm]

lemma foldl_applyDelta_getElem? (d : Vec3) :
    ∀ (L : List ℕ), L.Nodup → ∀ (ps : List Vec3) (p : ℕ),
      (L.foldl (applyDelta d) ps)[p]? =
        if p ∈ L then (ps[p]?).map (· + d) else ps[p]?
  | [], _, ps, p => by simp
  | i :: L', hnd, ps, p => by
    have hi : i ∉ L' := (List.nodup_cons.mp hnd).1
    have hL' : L'.Nodup := (List.nodup_cons.mp hnd).2
    rw [List.foldl_cons, foldl_applyDelta_getElem? d L' hL', applyDelta_getElem?]
    by_cases hmem : p ∈ L'
    · have hpi : p ≠ i := fun h => hi (h ▸ hmem)
      simp [hmem, hpi, List.mem_cons]
    · rcases eq_or_ne p i with rfl | hne
      · simp [hmem]
      · simp [hmem, hne, List.mem_cons]

lemma setAdd_nodup {α : Type} [DecidableEq α] (s : List α) (a : α)
    (h : s.Nodup) : (setAdd s a).Nodup := by
  unfold setAdd
  split
  · exact h
  · next hna => simpa [List.nodup_append] using ⟨h, hna⟩

lemma foldl_setAdd_nodup {α : Type} [DecidableEq α] :
    ∀ (l : List α) (s : List α), s.Nodup → (l.foldl setAdd s).Nodup
  | [], _, h => h
  | a :: l, s, h => foldl_setAdd_nodup l (setAdd s a) (setAdd_nodup s a h)

lemma collectOne_nodup (vertices : Option (List VertexData)) (s : List ℕ)
    (i : ℕ) (h : s.Nodup) : (collectOne vertices s i).Nodup := by
  unfold collectOne
  split
  · split
    · exact foldl_setAdd_nodup _ s h
    · exact setAdd_nodup s i h
  · exact setAdd_nodup s i h

lemma collectIndicesToUpdate_nodup (vertexIndices : List ℕ)
    (vertices : Option (List VertexData)) :
    (collectIndicesToUpdate vertexIndices vertices).Nodup := by
  unfold collectIndicesToUpdate
  generalize hs : ([] : List ℕ) = s
  have hnd : s.Nodup := hs ▸ List.nodup_nil
  clear hs
  induction vertexIndices generalizing s with
  | nil => exact hnd
  | cons i rest ih =>
    rw [List.foldl_cons]
    exact ih _ (collectOne_nodup vertices s i hnd)

/-! ## Claims -/

/-- C7: `moveVertices(g, idx, d)` followed by `moveVertices(g, idx, -d)`
restores every position-buffer entry exactly (the rational idealization of
"within float tolerance"), for every geometry, index list, delta and vertex
table. -/
theorem moveVertices_roundtrip (g : Geometry) (vertexIndices : List ℕ)
    (delta : Vec3) (vertices : Option (List VertexData)) :
    moveVertices (moveVertices g vertexIndices delta vertices) vertexIndices
      (-delta) vertices = g := by
  cases hg : g.position with
  | none =>
    unfold moveVertices
    rw [hg]
    rw [hg]
  | some ps =>
    unfold moveVertices
    rw [hg]
    simp only
    have hrestore :
        (collectIndicesToUpdate vertexIndices vertices).foldl
            (applyDelta (-delta))
            ((collectIndicesToUpdate vertexIndices vertices).foldl
              (applyDelta delta) ps) = ps := by
      apply List.ext_getElem?
      intro p
      rw [foldl_applyDelta_getElem? _ _
            (collectIndicesToUpdate_nodup vertexIndices vertices),
          foldl_applyDelta_getElem? _ _
            (collectIndicesToUpdate_nodup vertexIndices vertices)]
      by_cases hmem : p ∈ collectIndicesToUpdate vertexIndices vertices
      · simp only [hmem, if_pos, Option.map_map]
        cases ps[p]? with
        | none => rfl
        | some q => simp [Function.comp, Vec3.add_neg_cancel_right]
      · simp [hmem]
    rw [hrestore]
    cases g with
    | mk pos idx =>
      simp only at hg
      rw [hg]

lemma transformOne_id (center : Vec3) (ps : List Vec3) (i u : ℕ) :
    transformOne center ⟨0, 0, 0, 1⟩ ⟨1, 1, 1⟩ none ps i u = ps := by
  unfold transformOne
  cases h : ps[i]? with
  | none => rfl
  | some cur =>
    simp only
    have hval : ps.set i cur = ps := list_set_self ps i cur h
    convert hval using 2
    cases cur
    cases center
    simp only [Vec3.mk.injEq]
    refine ⟨by ring, by ring, by ring⟩

lemma foldl_transformOne_id (center : Vec3) :
    ∀ (L : List (ℕ × ℕ)) (ps : List Vec3),
      L.foldl (fun acc p =>
        transformOne center ⟨0, 0, 0, 1⟩ ⟨1, 1, 1⟩ none acc p.1 p.2) ps = ps
  | [], _ => rfl
  | p :: L, ps => by
    rw [List.foldl_cons, transformOne_id center ps p.1 p.2,
      foldl_transformOne_id center L ps]

/-- C6 (amended): `transformVerticesAroundCenter` with the identity
quaternion `(0,0,0,1)` and scale `(1,1,1)` leaves every position-buffer
entry unchanged whenever no `initialPositions` snapshot is supplied, for
every geometry, index list, center and vertex table. -/
theorem transformVertices_identity_noop (g : Geometry)
    (vertexIndices : List ℕ) (center : Vec3)
    (vertices : Option (List VertexData)) :
    transformVerticesAroundCenter g vertexIndices center ⟨0, 0, 0, 1⟩
      ⟨1, 1, 1⟩ vertices none = g := by
  cases hg : g.position with
  | none =>
    unfold transformVerticesAroundCenter
    rw [hg]
  | some ps =>
    unfold transformVerticesAroundCenter
    rw [hg]
    simp only
    rw [foldl_transformOne_id center
      (collectIndicesToUpdateMap vertexIndices vertices) ps]
    cases g with
    | mk pos idx =>
      simp only at hg
      rw [hg]

/-- C6 counterexample: with a caller-supplied `initialPositions` snapshot
that differs from the buffer (the buffer holds `(5,5,5)`, the snapshot maps
unique index 0 to `(1,2,3)`), the identity transform is not a no-op — the
buffer entry is rewritten to the snapshot value. -/
theorem transformVertices_identity_snapshot_not_noop :
    transformVerticesAroundCenter snapGeometry [0] ⟨0, 0, 0⟩ ⟨0, 0, 0, 1⟩
      ⟨1, 1, 1⟩ none (some [(0, ⟨1, 2, 3⟩)]) ≠ snapGeometry := by
  have h : transformVerticesAroundCenter snapGeometry [0] ⟨0, 0, 0⟩
      ⟨0, 0, 0, 1⟩ ⟨1, 1, 1⟩ none (some [(0, ⟨1, 2, 3⟩)]) =
      ⟨some [⟨1, 2, 3⟩], none⟩ := by
    norm_num [snapGeometry, transformVerticesAroundCenter,
      collectIndicesToUpdateMap, collectOneMap, mapSet, mapGet, transformOne,
      List.set]
  rw [h]
  intro hc
  have hp := congrArg Geometry.position hc
  simp [snapGeometry] at hp

/-- C5: the structural operations never mutate their input: whatever
`extrudeFace` and `executeLoopCut` return, the state of the caller's input
geometry at return time (the second component of the embedding, which
records every buffer write the source performs on it) equals the input; and
on success the geometry `extrudeFace` returns differs from the input as a
value (three vertices were appended), so it is a distinct object. -/
theorem structural_ops_never_mutate_input (msqrt : ℚ → ℚ) (g : Geometry)
    (faceIndex : ℕ) (distance : ℚ) (vertices : List VertexData)
    (faces : List FaceData) (g2 : Geometry) (path : LoopCutPath)
    (vs2 : List VertexData) (fs2 : List FaceData) :
    (extrudeFace msqrt g faceIndex distance vertices faces).map Prod.snd =
      (extrudeFace msqrt g faceIndex distance vertices faces).map
        (fun _ => g) ∧
    ((extrudeFace msqrt g faceIndex distance vertices faces).toOption.all
      fun rg => decide (rg.1.geometry ≠ rg.2)) = true ∧
    (executeLoopCut g2 path vs2 fs2).map Prod.snd =
      (executeLoopCut g2 path vs2 fs2).map (fun _ => g2) := by
  refine ⟨?_, ?_, ?_⟩
  · unfold extrudeFace
    split
    · rfl
    · split
      · rfl
      · split
        · rfl
        · rfl
  · unfold extrudeFace
    split
    · rfl
    · split
      · rfl
      · split
        · rename_i xa face hface xb ps hpos xc xd xe v1 v2 v3 hv1 hv2 hv3
          simp only [Except.toOption, Option.all_some, decide_eq_true_eq]
          intro heq
          have hp := congrArg Geometry.position heq
          rw [hpos] at hp
          have hl := congrArg List.length (Option.some.inj hp)
          simp [extrudedPositions] at hl
        · rfl
  · unfold executeLoopCut
    split
    · rfl
    · rfl

/-- C8: `extrudeFace` throws exactly when its preconditions fail: a
"face not found" error when `faceIndex` is out of range of the faces array
(this check runs first), a "no position data" error when the face resolves
but the geometry has no position attribute, and no throw for an in-range
`faceIndex` on a geometry with a position attribute whose face vertices
resolve in the vertex table (as data-model-consistent tables always do). -/
theorem extrudeFace_throws_iff_preconditions_fail (msqrt : ℚ → ℚ)
    (g : Geometry) (faceIndex : ℕ) (distance : ℚ)
    (vertices : List VertexData) (faces : List FaceData) :
    (faces.length ≤ faceIndex →
      extrudeFace msqrt g faceIndex distance vertices faces =
        .error ("Face index " ++ toString faceIndex ++ " not found")) ∧
    (∀ face, faces[faceIndex]? = some face → g.position = none →
      extrudeFace msqrt g faceIndex distance vertices faces =
        .error "Geometry has no position attribute") ∧
    (∀ face, faces[faceIndex]? = some face → g.position.isSome = true →
      (vertices[face.v1]?).isSome = true →
      (vertices[face.v2]?).isSome = true →
      (vertices[face.v3]?).isSome = true →
      ∃ r, extrudeFace msqrt g faceIndex distance vertices faces = .ok r) := by
  refine ⟨?_, ?_, ?_⟩
  · intro hout
    have hnone : faces[faceIndex]? = none := by
      rw [List.getElem?_eq_none_iff]
      exact hout
    simp [extrudeFace, hnone]
  · intro face hface hpos
    simp [extrudeFace, hface, hpos]
  · intro face hface hpos hv1 hv2 hv3
    obtain ⟨ps, hps⟩ := Option.isSome_iff_exists.mp hpos
    obtain ⟨v1, h1⟩ := Option.isSome_iff_exists.mp hv1
    obtain ⟨v2, h2⟩ := Option.isSome_iff_exists.mp hv2
    obtain ⟨v3, h3⟩ := Option.isSome_iff_exists.mp hv3
    cases he : extrudeFace msqrt g faceIndex distance vertices faces with
    | ok rg => exact ⟨rg, rfl⟩
    | error s =>
      exfalso
      simp [extrudeFace, hface, hps, h1, h2, h3] at he

/-- C8 witness: the three clauses at concrete inputs — an out-of-range face
index, a missing position attribute, and a fully resolving single-triangle
extrusion. -/
theorem extrudeFace_throws_iff_preconditions_fail_witness :
    extrudeFace mzero ⟨none, none⟩ 5 1 [] [] =
      .error ("Face index " ++ toString (5 : ℕ) ++ " not found") ∧
    extrudeFace mzero ⟨none, none⟩ 0 1 [] [⟨0, 0, 1, 2, false⟩] =
      .error "Geometry has no position attribute" ∧
    ∃ r, extrudeFace mzero triGeometry 0 (3 / 10) triVertices triFaces =
      .ok r := by
  refine ⟨?_, ?_, ?_⟩
  · exact (extrudeFace_throws_iff_preconditions_fail mzero ⟨none, none⟩ 5 1
      [] []).1 (by decide)
  · exact (extrudeFace_throws_iff_preconditions_fail mzero ⟨none, none⟩ 0 1
      [] [⟨0, 0, 1, 2, false⟩]).2.1 ⟨0, 0, 1, 2, false⟩ rfl rfl
  · exact (extrudeFace_throws_iff_preconditions_fail mzero triGeometry 0
      (3 / 10) triVertices triFaces).2.2 ⟨0, 0, 1, 2, false⟩ rfl rfl rfl rfl
      rfl

/-- C3: for a geometry with a position attribute and an in-range face whose
vertices resolve, `extrudeFace` succeeds without touching the input, appends
exactly 3 raw vertices at the end of the position buffer, appends exactly
7 triangles (1 top face followed by 6 side triangles, 21 index entries)
after all pre-existing triangles, and returns `extrudedFaceIndex` equal to
the input's triangle count. -/
theorem extrudeFace_counts (msqrt : ℚ → ℚ) (g : Geometry) (ps : List Vec3)
    (faceIndex : ℕ) (distance : ℚ) (vertices : List VertexData)
    (faces : List FaceData) (face : FaceData) (v1 v2 v3 : VertexData)
    (hpos : g.position = some ps)
    (hface : faces[faceIndex]? = some face)
    (hv1 : vertices[face.v1]? = some v1)
    (hv2 : vertices[face.v2]? = some v2)
    (hv3 : vertices[face.v3]? = some v3)
    (hlen : (oldIndicesOf g ps.length).length % 3 = 0) :
    ∃ r, extrudeFace msqrt g faceIndex distance vertices faces =
        .ok (r, g) ∧
      (∃ a b c, r.geometry.position = some (ps ++ [a, b, c])) ∧
      (r.geometry.position.getD []).length = ps.length + 3 ∧
      (∃ top sides,
        r.geometry.index = some (oldIndicesOf g ps.length ++ top ++ sides) ∧
        top.length = 3 ∧ sides.length = 18) ∧
      (r.geometry.index.getD []).length / 3 =
        (oldIndicesOf g ps.length).length / 3 + 7 ∧
      r.extrudedFaceIndex = (oldIndicesOf g ps.length).length / 3 := by
  have he : extrudeFace msqrt g faceIndex distance vertices faces =
      .ok ({ geometry :=
              ⟨some (extrudedPositions msqrt ps distance v1 v2 v3),
               some (oldIndicesOf g ps.length ++
                 [ps.length, ps.length + 1, ps.length + 2] ++
                 extrudeSideIndices (origIndexOf v1 face.v1)
                   (origIndexOf v2 face.v2) (origIndexOf v3 face.v3)
                   ps.length (ps.length + 1) (ps.length + 2))⟩,
             extrudedVertexBufferIndices :=
               [ps.length, ps.length + 1, ps.length + 2],
             extrudedFaceIndex := (oldIndicesOf g ps.length).length / 3 },
           g) := by
    simp [extrudeFace, hface, hpos, hv1, hv2, hv3]
  rw [he]
  refine ⟨_, rfl, ⟨_, _, _, rfl⟩, ?_, ⟨_, _, rfl, rfl, rfl⟩, ?_, rfl⟩
  · simp [extrudedPositions]
  · simp only [Option.getD_some, List.length_append, extrudeSideIndices,
      List.length_cons, List.length_nil]
    omega

/-- C3 witness: extruding face 0 of a unit cube (8 raw vertices, 12
triangles) yields 11 raw vertices and `extrudedFaceIndex = 12`. -/
theorem extrudeFace_counts_witness :
    ∃ r, extrudeFace mzero cubeGeometry 0 (3 / 10) cubeVertices cubeFaces =
        .ok (r, cubeGeometry) ∧
      (r.geometry.position.getD []).length = 11 ∧
      r.extrudedFaceIndex = 12 := by
  obtain ⟨r, hok, hp3, hl3, hidx, hdiv, hfi⟩ :=
    extrudeFace_counts mzero cubeGeometry cubeCorners 0 (3 / 10) cubeVertices
      cubeFaces ⟨0, 0, 2, 1, false⟩ ⟨0, ⟨-1/2, -1/2, -1/2⟩, false, [0]⟩
      ⟨2, ⟨1/2, 1/2, -1/2⟩, false, [2]⟩ ⟨1, ⟨1/2, -1/2, -1/2⟩, false, [1]⟩
      rfl rfl rfl rfl rfl (by decide)
  refine ⟨r, hok, ?_, ?_⟩
  · rw [hl3]
    rfl
  · rw [hfi]
    rfl

lemma processTriangles_eq_flatMap (vim : List (ℕ × ℕ))
    (K : List (ℕ × ℕ)) (M : List ((ℕ × ℕ) × ℕ)) :
    ∀ l, processTriangles vim K M l =
      (triples l).flatMap (fun t => processTriangle vim K M t.1 t.2.1 t.2.2)
  | [] => rfl
  | [_] => rfl
  | [_, _] => rfl
  | v1 :: v2 :: v3 :: rest => by
    rw [processTriangles, triples, List.flatMap_cons,
      processTriangles_eq_flatMap vim K M rest]

lemma processTriangle_cut0 (vim : List (ℕ × ℕ)) (K : List (ℕ × ℕ))
    (M : List ((ℕ × ℕ) × ℕ)) (a b c : ℕ)
    (h1 : edgeKey (toUniqueIndex vim a) (toUniqueIndex vim b) ∉ K)
    (h2 : edgeKey (toUniqueIndex vim b) (toUniqueIndex vim c) ∉ K)
    (h3 : edgeKey (toUniqueIndex vim c) (toUniqueIndex vim a) ∉ K) :
    processTriangle vim K M a b c = [a, b, c] := by
  simp [processTriangle, h1, h2, h3]

lemma processTriangle_cut1a (vim : List (ℕ × ℕ)) (K : List (ℕ × ℕ))
    (M : List ((ℕ × ℕ) × ℕ)) (a b c : ℕ)
    (h1 : edgeKey (toUniqueIndex vim a) (toUniqueIndex vim b) ∈ K)
    (h2 : edgeKey (toUniqueIndex vim b) (toUniqueIndex vim c) ∉ K)
    (h3 : edgeKey (toUniqueIndex vim c) (toUniqueIndex vim a) ∉ K) :
    processTriangle vim K M a b c =
      [a, (mapGet (edgeKey (toUniqueIndex vim a) (toUniqueIndex vim b)) M).getD 0, c,
       (mapGet (edgeKey (toUniqueIndex vim a) (toUniqueIndex vim b)) M).getD 0, b, c] := by
  simp [processTriangle, h1, h2, h3]

lemma processTriangle_cut1b (vim : List (ℕ × ℕ)) (K : List (ℕ × ℕ))
    (M : List ((ℕ × ℕ) × ℕ)) (a b c : ℕ)
    (h1 : edgeKey (toUniqueIndex vim a) (toUniqueIndex vim b) ∉ K)
    (h2 : edgeKey (toUniqueIndex vim b) (toUniqueIndex vim c) ∈ K)
    (h3 : edgeKey (toUniqueIndex vim c) (toUniqueIndex vim a) ∉ K) :
    processTriangle vim K M a b c =
      [a, b, (mapGet (edgeKey (toUniqueIndex vim b) (toUniqueIndex vim c)) M).getD 0,
       a, (mapGet (edgeKey (toUniqueIndex vim b) (toUniqueIndex vim c)) M).getD 0, c] := by
  simp [processTriangle, h1, h2, h3]

lemma processTriangle_cut1c (vim : List (ℕ × ℕ)) (K : List (ℕ × ℕ))
    (M : List ((ℕ × ℕ) × ℕ)) (a b c : ℕ)
    (h1 : edgeKey (toUniqueIndex vim a) (toUniqueIndex vim b) ∉ K)
    (h2 : edgeKey (toUniqueIndex vim b) (toUniqueIndex vim c) ∉ K)
    (h3 : edgeKey (toUniqueIndex vim c) (toUniqueIndex vim a) ∈ K) :
    processTriangle vim K M a b c =
      [a, b, (mapGet (edgeKey (toUniqueIndex vim c) (toUniqueIndex vim a)) M).getD 0,
       (mapGet (edgeKey (toUniqueIndex vim c) (toUniqueIndex vim a)) M).getD 0, c, a] := by
  simp [processTriangle, h1, h2, h3]

lemma processTriangle_cut2a (vim : List (ℕ × ℕ)) (K : List (ℕ × ℕ))
    (M : List ((ℕ × ℕ) × ℕ)) (a b c : ℕ)
    (h1 : edgeKey (toUniqueIndex vim a) (toUniqueIndex vim b) ∈ K)
    (h2 : edgeKey (toUniqueIndex vim b) (toUniqueIndex vim c) ∈ K)
    (h3 : edgeKey (toUniqueIndex vim c) (toUniqueIndex vim a) ∉ K) :
    processTriangle vim K M a b c =
      [a, (mapGet (edgeKey (toUniqueIndex vim a) (toUniqueIndex vim b)) M).getD 0, c,
       (mapGet (edgeKey (toUniqueIndex vim a) (toUniqueIndex vim b)) M).getD 0,
       (mapGet (edgeKey (toUniqueIndex vim b) (toUniqueIndex vim c)) M).getD 0, c,
       (mapGet (edgeKey (toUniqueIndex vim a) (toUniqueIndex vim b)) M).getD 0, b,
       (mapGet (edgeKey (toUniqueIndex vim b) (toUniqueIndex vim c)) M).getD 0] := by
  simp [processTriangle, h1, h2, h3]

lemma processTriangle_cut2b (vim : List (ℕ × ℕ)) (K : List (ℕ × ℕ))
    (M : List ((ℕ × ℕ) × ℕ)) (a b c : ℕ)
    (h1 : edgeKey (toUniqueIndex vim a) (toUniqueIndex vim b) ∉ K)
    (h2 : edgeKey (toUniqueIndex vim b) (toUniqueIndex vim c) ∈ K)
    (h3 : edgeKey (toUniqueIndex vim c) (toUniqueIndex vim a) ∈ K) :
    processTriangle vim K M a b c =
      [a, b, (mapGet (edgeKey (toUniqueIndex vim b) (toUniqueIndex vim c)) M).getD 0,
       a, (mapGet (edgeKey (toUniqueIndex vim b) (toUniqueIndex vim c)) M).getD 0,
       (mapGet (edgeKey (toUniqueIndex vim c) (toUniqueIndex vim a)) M).getD 0,
       (mapGet (edgeKey (toUniqueIndex vim b) (toUniqueIndex vim c)) M).getD 0, c,
       (mapGet (edgeKey (toUniqueIndex vim c) (toUniqueIndex vim a)) M).getD 0] := by
  simp [processTriangle, h1, h2, h3]

lemma processTriangle_cut2c (vim : List (ℕ × ℕ)) (K : List (ℕ × ℕ))
    (M : List ((ℕ × ℕ) × ℕ)) (a b c : ℕ)
    (h1 : edgeKey (toUniqueIndex vim a) (toUniqueIndex vim b) ∈ K)
    (h2 : edgeKey (toUniqueIndex vim b) (toUniqueIndex vim c) ∉ K)
    (h3 : edgeKey (toUniqueIndex vim c) (toUniqueIndex vim a) ∈ K) :
    processTriangle vim K M a b c =
      [b, c, (mapGet (edgeKey (toUniqueIndex vim c) (toUniqueIndex vim a)) M).getD 0,
       b, (mapGet (edgeKey (toUniqueIndex vim c) (toUniqueIndex vim a)) M).getD 0,
       (mapGet (edgeKey (toUniqueIndex vim a) (toUniqueIndex vim b)) M).getD 0,
       (mapGet (edgeKey (toUniqueIndex vim a) (toUniqueIndex vim b)) M).getD 0,
       (mapGet (edgeKey (toUniqueIndex vim c) (toUniqueIndex vim a)) M).getD 0, a] := by
  simp [processTriangle, h1, h2, h3]

lemma processTriangle_cut3 (vim : List (ℕ × ℕ)) (K : List (ℕ × ℕ))
    (M : List ((ℕ × ℕ) × ℕ)) (a b c : ℕ)
    (h1 : edgeKey (toUniqueIndex vim a) (toUniqueIndex vim b) ∈ K)
    (h2 : edgeKey (toUniqueIndex vim b) (toUniqueIndex vim c) ∈ K)
    (h3 : edgeKey (toUniqueIndex vim c) (toUniqueIndex vim a) ∈ K) :
    processTriangle vim K M a b c = [a, b, c] := by
  simp [processTriangle, h1, h2, h3]

/-- C1: for every geometry with a position buffer and well-formed triangle
list, `executeLoopCut` succeeds, appends exactly one new vertex per path
point (in path order) at the end of the position buffer, numbers them
`oldCount, oldCount+1, …`, and rebuilds the index list as the concatenation,
over the original triangles in order, of the per-triangle re-triangulation;
and that re-triangulation, as a function of which sides are cut edges, is:
0 cut sides — the triangle copied unchanged; exactly 1 cut side — 2
triangles (the new vertex replacing an endpoint, in the three enumerated
ways); exactly 2 cut sides — 3 triangles with three distinct vertex
orderings depending on which pair of sides is cut; all 3 sides cut — the
original triangle unchanged. -/
theorem executeLoopCut_retriangulation (g : Geometry) (ps : List Vec3)
    (path : LoopCutPath) (vs : List VertexData) (fs : List FaceData)
    (hpos : g.position = some ps)
    (_hlen : (oldIndicesOf g ps.length).length % 3 = 0) :
    (∃ r, executeLoopCut g path vs fs = .ok (r, g) ∧
      r.geometry.position =
        some (ps ++ path.points.map (fun p => p.position)) ∧
      r.newVertexIndices =
        (List.range path.points.length).map (fun i => ps.length + i) ∧
      r.geometry.index = some ((triples (oldIndicesOf g ps.length)).flatMap
        (fun t => processTriangle
          (extractVerticesWithMappings g).vertexIndexMap
          (path.points.map (fun p => edgeKey p.ev1 p.ev2))
          (path.points.enum.foldl (fun m p =>
            mapSet m (edgeKey p.2.ev1 p.2.ev2) (ps.length + p.1)) [])
          t.1 t.2.1 t.2.2))) ∧
    (∀ (vim K : List (ℕ × ℕ)) (M : List ((ℕ × ℕ) × ℕ)) (a b c : ℕ),
      let e1 := edgeKey (toUniqueIndex vim a) (toUniqueIndex vim b)
      let e2 := edgeKey (toUniqueIndex vim b) (toUniqueIndex vim c)
      let e3 := edgeKey (toUniqueIndex vim c) (toUniqueIndex vim a)
      let n1 := (mapGet e1 M).getD 0
      let n2 := (mapGet e2 M).getD 0
      let n3 := (mapGet e3 M).getD 0
      (e1 ∉ K → e2 ∉ K → e3 ∉ K →
        processTriangle vim K M a b c = [a, b, c]) ∧
      (e1 ∈ K → e2 ∉ K → e3 ∉ K →
        processTriangle vim K M a b c = [a, n1, c, n1, b, c]) ∧
      (e1 ∉ K → e2 ∈ K → e3 ∉ K →
        processTriangle vim K M a b c = [a, b, n2, a, n2, c]) ∧
      (e1 ∉ K → e2 ∉ K → e3 ∈ K →
        processTriangle vim K M a b c = [a, b, n3, n3, c, a]) ∧
      (e1 ∈ K → e2 ∈ K → e3 ∉ K →
        processTriangle vim K M a b c = [a, n1, c, n1, n2, c, n1, b, n2]) ∧
      (e1 ∉ K → e2 ∈ K → e3 ∈ K →
        processTriangle vim K M a b c = [a, b, n2, a, n2, n3, n2, c, n3]) ∧
      (e1 ∈ K → e2 ∉ K → e3 ∈ K →
        processTriangle vim K M a b c = [b, c, n3, b, n3, n1, n1, n3, a]) ∧
      (e1 ∈ K → e2 ∈ K → e3 ∈ K →
        processTriangle vim K M a b c = [a, b, c])) := by
  constructor
  · simp only [executeLoopCut, hpos]
    refine ⟨_, rfl, rfl, rfl, ?_⟩
    rw [processTriangles_eq_flatMap]
  · intro vim K M a b c
    refine ⟨fun h1 h2 h3 => processTriangle_cut0 vim K M a b c h1 h2 h3,
      fun h1 h2 h3 => processTriangle_cut1a vim K M a b c h1 h2 h3,
      fun h1 h2 h3 => processTriangle_cut1b vim K M a b c h1 h2 h3,
      fun h1 h2 h3 => processTriangle_cut1c vim K M a b c h1 h2 h3,
      fun h1 h2 h3 => processTriangle_cut2a vim K M a b c h1 h2 h3,
      fun h1 h2 h3 => processTriangle_cut2b vim K M a b c h1 h2 h3,
      fun h1 h2 h3 => processTriangle_cut2c vim K M a b c h1 h2 h3,
      fun h1 h2 h3 => processTriangle_cut3 vim K M a b c h1 h2 h3⟩

lemma findNextInFace_mem (candidates : List CandidateEdge) (used : List ℕ)
    (currentKey : ℕ × ℕ) (face : FaceData) (c : CandidateEdge)
    (h : findNextInFace candidates used currentKey face = some c) :
    c ∈ candidates ∧ c.edgeIndex ∉ used := by
  obtain ⟨fk, _, hfk⟩ := List.exists_of_findSome?_eq_some h
  by_cases heq : fk = currentKey
  · simp [heq] at hfk
  · simp only [if_neg heq] at hfk
    refine ⟨List.mem_of_find?_eq_some hfk, ?_⟩
    have hp := List.find?_some hfk
    simp only [Bool.and_eq_true, Bool.not_eq_true'] at hp
    simpa using hp.1

lemma findNextCandidate_some_mem (faces : List FaceData)
    (candidates : List CandidateEdge) (used : List ℕ) (currentKey : ℕ × ℕ) :
    ∀ (adj : List ℕ) (c : CandidateEdge),
      findNextCandidate faces candidates used currentKey adj = .ok (some c) →
      c ∈ candidates ∧ c.edgeIndex ∉ used
  | [], c, h => by simp [findNextCandidate] at h
  | fIdx :: rest, c, h => by
    rw [findNextCandidate] at h
    cases hf : faces[fIdx]? with
    | none => simp [hf] at h
    | some face =>
      simp only [hf] at h
      cases hn : findNextInFace candidates used currentKey face with
      | some c' =>
        simp only [hn] at h
        have hc : c' = c := by
          simpa using h
        exact hc ▸ findNextInFace_mem candidates used currentKey face c' hn
      | none =>
        simp only [hn] at h
        exact findNextCandidate_some_mem faces candidates used currentKey
          rest c h

lemma findNextCandidate_isOk (faces : List FaceData)
    (candidates : List CandidateEdge) (used : List ℕ) (currentKey : ℕ × ℕ) :
    ∀ (adj : List ℕ), (∀ fIdx ∈ adj, (faces[fIdx]?).isSome = true) →
      ∃ o, findNextCandidate faces candidates used currentKey adj = .ok o
  | [], _ => ⟨none, rfl⟩
  | fIdx :: rest, hadj => by
    obtain ⟨face, hface⟩ := Option.isSome_iff_exists.mp
      (hadj fIdx (List.mem_cons_self fIdx rest))
    rw [findNextCandidate]
    simp only [hface]
    cases hn : findNextInFace candidates used currentKey face with
    | some c =>
      simp only [hn]
      exact ⟨some c, rfl⟩
    | none =>
      simp only [hn]
      exact findNextCandidate_isOk faces candidates used currentKey rest
        (fun f hf => hadj f (List.mem_cons_of_mem fIdx hf))

lemma mapGet_mem {κ β : Type} [DecidableEq κ] (k : κ) (v : β) :
    ∀ (m : List (κ × β)), mapGet k m = some v → (k, v) ∈ m
  | [], h => by simp [mapGet] at h
  | (k0, v0) :: rest, h => by
    rw [mapGet] at h
    split at h
    · next heq =>
      obtain rfl : v0 = v := by simpa using h
      exact heq ▸ List.mem_cons_self _ _
    · exact List.mem_cons_of_mem _ (mapGet_mem k v rest h)

lemma mapPush_entries {κ : Type} [DecidableEq κ] (P : ℕ → Prop) :
    ∀ (m : List (κ × List ℕ)) (k : κ) (v : ℕ),
      (∀ e ∈ m, ∀ x ∈ e.2, P x) → P v →
      ∀ e ∈ mapPush m k v, ∀ x ∈ e.2, P x
  | [], k, v, _, hv, e, he => by
    rw [mapPush] at he
    obtain rfl : e = (k, [v]) := by simpa using he
    simpa using hv
  | (k0, vs0) :: rest, k, v, hm, hv, e, he => by
    rw [mapPush] at he
    split at he
    · rcases List.mem_cons.mp he with rfl | he'
      · intro x hx
        rcases List.mem_append.mp hx with hx | hx
        · exact hm (k0, vs0) (List.mem_cons_self _ _) x hx
        · have hxv : x = v := by simpa using hx
          exact hxv ▸ hv
      · exact hm e (List.mem_cons_of_mem _ he')
    · rcases List.mem_cons.mp he with rfl | he'
      · exact hm (k0, vs0) (List.mem_cons_self _ _)
      · exact mapPush_entries P rest k v
          (fun e' he'' => hm e' (List.mem_cons_of_mem _ he'')) hv e he'

lemma buildEdgeToFacesMap_entries (faces : List FaceData) :
    ∀ e ∈ buildEdgeToFacesMap faces, ∀ x ∈ e.2,
      x ∈ faces.map (fun f => f.index) := by
  unfold buildEdgeToFacesMap
  suffices h : ∀ (fs : List FaceData) (m : List ((ℕ × ℕ) × List ℕ)),
      (∀ f ∈ fs, f.index ∈ faces.map (fun f => f.index)) →
      (∀ e ∈ m, ∀ x ∈ e.2, x ∈ faces.map (fun f => f.index)) →
      ∀ e ∈ fs.foldl (fun m face =>
          mapPush (mapPush (mapPush m (edgeKey face.v1 face.v2) face.index)
              (edgeKey face.v2 face.v3) face.index)
            (edgeKey face.v3 face.v1) face.index) m,
        ∀ x ∈ e.2, x ∈ faces.map (fun f => f.index) by
    exact h faces []
      (fun f hf => List.mem_map.mpr ⟨f, hf, rfl⟩) (by simp)
  intro fs
  induction fs with
  | nil => intro m _ hm; exact hm
  | cons f fs ih =>
    intro m hfs hm
    rw [List.foldl_cons]
    refine ih _ (fun f' hf' => hfs f' (List.mem_cons_of_mem f hf')) ?_
    have hP : f.index ∈ faces.map (fun f => f.index) :=
      hfs f (List.mem_cons_self f fs)
    exact mapPush_entries _ _ _ _
      (mapPush_entries _ _ _ _ (mapPush_entries _ _ _ _ hm hP) hP) hP

lemma ringLoop_isOk (faces : List FaceData) (candidates : List CandidateEdge)
    (e2f : List ((ℕ × ℕ) × List ℕ))
    (hvals : ∀ e ∈ e2f, ∀ x ∈ e.2, (faces[x]?).isSome = true) :
    ∀ (fuel : ℕ) (used : List ℕ) (cur : Option CandidateEdge),
      ∃ pts, ringLoop faces candidates e2f fuel used cur = .ok pts
  | fuel, _, none => ⟨[], by cases fuel <;> rfl⟩
  | 0, _, some _ => ⟨[], rfl⟩
  | fuel + 1, used, some c => by
    rw [ringLoop]
    by_cases hu : c.edgeIndex ∈ used
    · exact ⟨[], by rw [if_pos hu]⟩
    · rw [if_neg hu]
      have hadj : ∀ fIdx ∈ (mapGet (edgeKey c.edge.v1 c.edge.v2) e2f).getD [],
          (faces[fIdx]?).isSome = true := by
        cases hmg : mapGet (edgeKey c.edge.v1 c.edge.v2) e2f with
        | none => simp
        | some vs =>
          simp only [Option.getD_some]
          exact hvals _ (mapGet_mem _ _ _ hmg)
      obtain ⟨o, ho⟩ := findNextCandidate_isOk faces candidates
        (used ++ [c.edgeIndex]) (edgeKey c.edge.v1 c.edge.v2) _ hadj
      simp only [ho]
      cases o with
      | none =>
        have hnil : ringLoop faces candidates e2f fuel
            (used ++ [c.edgeIndex]) none = .ok [] := by
          cases fuel <;> rfl
        simp only [hnil]
        exact ⟨_, rfl⟩
      | some next =>
        obtain ⟨rest, hrest⟩ := ringLoop_isOk faces candidates e2f hvals fuel
          (used ++ [c.edgeIndex]) (some next)
        simp only [hrest]
        exact ⟨_, rfl⟩

lemma ringLoop_nodup (faces : List FaceData)
    (candidates : List CandidateEdge) (e2f : List ((ℕ × ℕ) × List ℕ)) :
    ∀ (fuel : ℕ) (used : List ℕ) (cur : Option CandidateEdge)
      (pts : List LoopCutPoint),
      (∀ c, cur = some c → c ∈ candidates) →
      ringLoop faces candidates e2f fuel used cur = .ok pts →
      (pts.map (fun p => p.edgeIndex)).Nodup ∧
      (∀ p ∈ pts, p.edgeIndex ∉ used) ∧
      (∀ p ∈ pts, p.edgeIndex ∈ candidates.map (fun c => c.edgeIndex))
  | fuel, _, none, pts, _, h => by
    have hnil : pts = [] := by cases fuel <;> exact (Except.ok.inj h).symm
    subst hnil
    simp
  | 0, _, some _, pts, _, h => by
    have hnil : pts = [] := (Except.ok.inj h).symm
    subst hnil
    simp
  | fuel + 1, used, some c, pts, hcur, h => by
    rw [ringLoop] at h
    by_cases hu : c.edgeIndex ∈ used
    · rw [if_pos hu] at h
      have hnil : pts = [] := (Except.ok.inj h).symm
      subst hnil
      simp
    · rw [if_neg hu] at h
      cases hfn : findNextCandidate faces candidates (used ++ [c.edgeIndex])
          (edgeKey c.edge.v1 c.edge.v2)
          ((mapGet (edgeKey c.edge.v1 c.edge.v2) e2f).getD []) with
      | error e => simp [hfn] at h
      | ok next =>
        simp only [hfn] at h
        cases hr : ringLoop faces candidates e2f fuel
            (used ++ [c.edgeIndex]) next with
        | error e => simp [hr] at h
        | ok rest =>
          simp only [hr] at h
          have hpts : pts =
              ⟨c.position, c.edgeIndex, c.edge.v1, c.edge.v2, c.tValue⟩ ::
                rest := (Except.ok.inj h).symm
          subst hpts
          have hnext : ∀ c', next = some c' → c' ∈ candidates := fun c' hc' =>
            (findNextCandidate_some_mem faces candidates _ _ _ c'
              (hc' ▸ hfn)).1
          obtain ⟨ih1, ih2, ih3⟩ := ringLoop_nodup faces candidates e2f fuel
            (used ++ [c.edgeIndex]) next rest hnext hr
          refine ⟨?_, ?_, ?_⟩
          · simp only [List.map_cons, List.nodup_cons]
            refine ⟨?_, ih1⟩
            intro hmem
            obtain ⟨p, hp, hpe⟩ := List.mem_map.mp hmem
            exact (ih2 p hp) (by simp [hpe])
          · intro p hp
            rcases List.mem_cons.mp hp with rfl | hp'
            · exact hu
            · exact fun hmem => ih2 p hp' (List.mem_append_left _ hmem)
          · intro p hp
            rcases List.mem_cons.mp hp with rfl | hp'
            · exact List.mem_map.mpr ⟨c, hcur c rfl, rfl⟩
            · exact ih3 p hp'

lemma unusedCount_le (candidates : List CandidateEdge) (used : List ℕ) :
    unusedCount candidates used ≤ candidates.length := by
  unfold unusedCount
  calc ((((candidates.map (fun c => c.edgeIndex)).dedup)).filter
          (fun i => decide (i ∉ used))).length ≤
      ((candidates.map (fun c => c.edgeIndex)).dedup).length :=
        (List.filter_sublist _).length_le
    _ ≤ (candidates.map (fun c => c.edgeIndex)).length :=
        (List.dedup_sublist _).length_le
    _ = candidates.length := List.length_map _ _

lemma unusedCount_pos (candidates : List CandidateEdge) (used : List ℕ)
    (c : CandidateEdge) (hc : c ∈ candidates) (hnu : c.edgeIndex ∉ used) :
    1 ≤ unusedCount candidates used := by
  have hmem : c.edgeIndex ∈
      ((candidates.map (fun c => c.edgeIndex)).dedup).filter
        (fun i => decide (i ∉ used)) :=
    List.mem_filter.mpr ⟨List.mem_dedup.mpr (List.mem_map.mpr ⟨c, hc, rfl⟩),
      by simpa using hnu⟩
  have := List.length_pos.mpr (List.ne_nil_of_mem hmem)
  unfold unusedCount
  omega

lemma unusedCount_append (candidates : List CandidateEdge) (used : List ℕ)
    (c : CandidateEdge) (hc : c ∈ candidates) (hnu : c.edgeIndex ∉ used) :
    unusedCount candidates (used ++ [c.edgeIndex]) =
      unusedCount candidates used - 1 := by
  unfold unusedCount
  have hnd : ((candidates.map (fun c => c.edgeIndex)).dedup).Nodup :=
    List.nodup_dedup _
  have hfe : ((candidates.map (fun c => c.edgeIndex)).dedup).filter
        (fun i => decide (i ∉ used ++ [c.edgeIndex])) =
      (((candidates.map (fun c => c.edgeIndex)).dedup).filter
        (fun i => decide (i ∉ used))).filter (fun i => i != c.edgeIndex) := by
    rw [List.filter_filter]
    apply List.filter_congr
    intro a _
    by_cases h1 : a ∈ used <;> by_cases h2 : a = c.edgeIndex <;>
      simp [h1, h2]
  rw [hfe]
  have hndf : ((((candidates.map (fun c => c.edgeIndex)).dedup)).filter
      (fun i => decide (i ∉ used))).Nodup := hnd.filter _
  have hcin : c.edgeIndex ∈
      (((candidates.map (fun c => c.edgeIndex)).dedup)).filter
        (fun i => decide (i ∉ used)) :=
    List.mem_filter.mpr ⟨List.mem_dedup.mpr (List.mem_map.mpr ⟨c, hc, rfl⟩),
      by simpa using hnu⟩
  rw [← List.Nodup.erase_eq_filter hndf]
  exact List.length_erase_of_mem hcin

lemma ringLoop_fuel_succ (faces : List FaceData)
    (candidates : List CandidateEdge) (e2f : List ((ℕ × ℕ) × List ℕ)) :
    ∀ (fuel : ℕ) (used : List ℕ) (cur : Option CandidateEdge),
      unusedCount candidates used ≤ fuel →
      (∀ c, cur = some c → c ∈ candidates) →
      ringLoop faces candidates e2f (fuel + 1) used cur =
        ringLoop faces candidates e2f fuel used cur
  | fuel, _, none, _, _ => by cases fuel <;> rfl
  | 0, used, some c, hm, hcur => by
    by_cases hu : c.edgeIndex ∈ used
    · conv_lhs => rw [ringLoop]
      rw [if_pos hu]
      rfl
    · exact absurd hm
        (by have := unusedCount_pos candidates used c (hcur c rfl) hu; omega)
  | fuel + 1, used, some c, hm, hcur => by
    by_cases hu : c.edgeIndex ∈ used
    · conv_lhs => rw [ringLoop]
      conv_rhs => rw [ringLoop]
      rw [if_pos hu, if_pos hu]
    · conv_lhs => rw [ringLoop]
      conv_rhs => rw [ringLoop]
      rw [if_neg hu, if_neg hu]
      cases hfn : findNextCandidate faces candidates (used ++ [c.edgeIndex])
          (edgeKey c.edge.v1 c.edge.v2)
          ((mapGet (edgeKey c.edge.v1 c.edge.v2) e2f).getD []) with
      | error e => simp only [hfn]
      | ok next =>
        simp only [hfn]
        have hrec : ringLoop faces candidates e2f (fuel + 1)
            (used ++ [c.edgeIndex]) next =
            ringLoop faces candidates e2f fuel (used ++ [c.edgeIndex]) next := by
          refine ringLoop_fuel_succ faces candidates e2f fuel
            (used ++ [c.edgeIndex]) next ?_ ?_
          · have h1 := unusedCount_append candidates used c (hcur c rfl) hu
            have h2 := unusedCount_pos candidates used c (hcur c rfl) hu
            omega
          · intro c' hc'
            exact (findNextCandidate_some_mem faces candidates _ _ _ c'
              (hc' ▸ hfn)).1
        rw [hrec]

lemma ringLoop_fuel_add (faces : List FaceData)
    (candidates : List CandidateEdge) (e2f : List ((ℕ × ℕ) × List ℕ)) :
    ∀ (extra fuel : ℕ) (used : List ℕ) (cur : Option CandidateEdge),
      unusedCount candidates used ≤ fuel →
      (∀ c, cur = some c → c ∈ candidates) →
      ringLoop faces candidates e2f (fuel + extra) used cur =
        ringLoop faces candidates e2f fuel used cur
  | 0, _, _, _, _, _ => rfl
  | extra + 1, fuel, used, cur, hm, hcur => by
    have h1 : fuel + (extra + 1) = (fuel + extra) + 1 := rfl
    rw [h1, ringLoop_fuel_succ faces candidates e2f (fuel + extra) used cur
        (le_trans hm (Nat.le_add_right fuel extra)) hcur,
      ringLoop_fuel_add faces candidates e2f extra fuel used cur hm hcur]

/-- C10: the ring-ordering traversal loop of `findLoopCutPath` terminates —
fuel equal to the candidate count already yields the loop's fixed point, so
the unbounded source loop stops after at most that many iterations — and
any returned point list mentions each candidate edge index at most once,
hence has at most as many points as there are candidate edges. -/
theorem findLoopCutPath_ring_terminates (startEdge : EdgeData)
    (edges : List EdgeData) (faces : List FaceData)
    (vertices : List VertexData) (t : ℚ) :
    (∀ extra, ringLoop faces (loopCutCandidates startEdge edges vertices t)
        (buildEdgeToFacesMap faces)
        ((loopCutCandidates startEdge edges vertices t).length + extra) []
        (loopCutCandidates startEdge edges vertices t).head? =
      ringLoop faces (loopCutCandidates startEdge edges vertices t)
        (buildEdgeToFacesMap faces)
        (loopCutCandidates startEdge edges vertices t).length []
        (loopCutCandidates startEdge edges vertices t).head?) ∧
    (∀ path, findLoopCutPath startEdge edges faces vertices t = .ok path →
      (path.points.map (fun p => p.edgeIndex)).Nodup ∧
      path.points.length ≤
        (loopCutCandidates startEdge edges vertices t).length) := by
  have hhead : ∀ c, (loopCutCandidates startEdge edges vertices t).head? =
      some c → c ∈ loopCutCandidates startEdge edges vertices t :=
    fun c hc => List.mem_of_mem_head? (Option.mem_def.mpr hc)
  constructor
  · intro extra
    exact ringLoop_fuel_add faces _ _ extra _ [] _ (unusedCount_le _ _) hhead
  · intro path hpath
    unfold findLoopCutPath at hpath
    cases hv1 : vertices[startEdge.v1]? with
    | none =>
      simp only [hv1] at hpath
      obtain rfl : path = ⟨[], false⟩ := (Except.ok.inj hpath).symm
      simp
    | some a1 =>
      cases hv2 : vertices[startEdge.v2]? with
      | none =>
        simp only [hv1, hv2] at hpath
        obtain rfl : path = ⟨[], false⟩ := (Except.ok.inj hpath).symm
        simp
      | some a2 =>
        simp only [hv1, hv2] at hpath
        by_cases hz : (loopCutCandidates startEdge edges vertices t).length = 0
        · rw [if_pos hz] at hpath
          obtain rfl : path = ⟨[], false⟩ := (Except.ok.inj hpath).symm
          simp
        · rw [if_neg hz] at hpath
          cases hr : ringLoop faces (loopCutCandidates startEdge edges
              vertices t) (buildEdgeToFacesMap faces)
              (loopCutCandidates startEdge edges vertices t).length []
              (loopCutCandidates startEdge edges vertices t).head? with
          | error e => simp [hr] at hpath
          | ok pts =>
            simp only [hr] at hpath
            obtain rfl : path = ⟨pts, (pts.length ==
                (loopCutCandidates startEdge edges vertices t).length) &&
                decide (2 < pts.length)⟩ := (Except.ok.inj hpath).symm
            obtain ⟨h1, _, h3⟩ := ringLoop_nodup faces _ _ _ [] _ pts hhead hr
            refine ⟨h1, ?_⟩
            have hsub : pts.map (fun p => p.edgeIndex) ⊆
                (loopCutCandidates startEdge edges vertices t).map
                  (fun c => c.edgeIndex) := by
              intro x hx
              obtain ⟨p, hp, rfl⟩ := List.mem_map.mp hx
              exact h3 p hp
            have hle := (h1.subperm hsub).length_le
            simpa using hle

/-- C10 witness: with no vertices the start edge does not resolve, the path
is empty, and the fuel fixed point is immediate. -/
theorem findLoopCutPath_ring_terminates_witness :
    (ringLoop [] (loopCutCandidates ⟨0, 0, 1, false⟩ [] [] (1/2))
        (buildEdgeToFacesMap [])
        ((loopCutCandidates ⟨0, 0, 1, false⟩ [] [] (1/2)).length + 1) []
        (loopCutCandidates ⟨0, 0, 1, false⟩ [] [] (1/2)).head? =
      ringLoop [] (loopCutCandidates ⟨0, 0, 1, false⟩ [] [] (1/2))
        (buildEdgeToFacesMap [])
        (loopCutCandidates ⟨0, 0, 1, false⟩ [] [] (1/2)).length []
        (loopCutCandidates ⟨0, 0, 1, false⟩ [] [] (1/2)).head?) ∧
    ((([] : List LoopCutPoint).map (fun p => p.edgeIndex)).Nodup ∧
      ([] : List LoopCutPoint).length ≤
        (loopCutCandidates ⟨0, 0, 1, false⟩ [] [] (1/2)).length) := by
  constructor
  · exact (findLoopCutPath_ring_terminates ⟨0, 0, 1, false⟩ [] [] []
      (1/2)).1 1
  · exact (findLoopCutPath_ring_terminates ⟨0, 0, 1, false⟩ [] [] []
      (1/2)).2 ⟨[], false⟩ rfl

/-- C4: for a start edge whose endpoints resolve in the vertex table (and an
index-consistent faces table, as extraction produces), `findLoopCutPath`
never throws; with no plane-crossing edge it returns the empty, non-closed
path; and in every case `isClosed` is true exactly when the ordered points
exhaust the candidate edges and number more than 2. -/
theorem findLoopCutPath_no_throw_isClosed (startEdge : EdgeData)
    (edges : List EdgeData) (faces : List FaceData)
    (vertices : List VertexData) (t : ℚ)
    (hv1 : (vertices[startEdge.v1]?).isSome = true)
    (hv2 : (vertices[startEdge.v2]?).isSome = true)
    (hWF : ∀ f ∈ faces, f.index < faces.length) :
    ∃ path, findLoopCutPath startEdge edges faces vertices t = .ok path ∧
      (loopCutCandidates startEdge edges vertices t = [] →
        path = ⟨[], false⟩) ∧
      (path.isClosed = true ↔
        (path.points.length =
            (loopCutCandidates startEdge edges vertices t).length ∧
          2 < path.points.length)) := by
  obtain ⟨a1, ha1⟩ := Option.isSome_iff_exists.mp hv1
  obtain ⟨a2, ha2⟩ := Option.isSome_iff_exists.mp hv2
  unfold findLoopCutPath
  simp only [ha1, ha2]
  by_cases hz : (loopCutCandidates startEdge edges vertices t).length = 0
  · rw [if_pos hz]
    refine ⟨⟨[], false⟩, rfl, fun _ => rfl, ?_⟩
    simp only [List.length_nil]
    constructor
    · intro h
      cases h
    · rintro ⟨-, h⟩
      omega
  · have hvals : ∀ e ∈ buildEdgeToFacesMap faces, ∀ x ∈ e.2,
        (faces[x]?).isSome = true := by
      intro e he x hx
      obtain ⟨f, hf, rfl⟩ :=
        List.mem_map.mp (buildEdgeToFacesMap_entries faces e he x hx)
      rw [List.getElem?_eq_getElem (hWF f hf)]
      rfl
    obtain ⟨pts, hpts⟩ := ringLoop_isOk faces
      (loopCutCandidates startEdge edges vertices t)
      (buildEdgeToFacesMap faces) hvals
      (loopCutCandidates startEdge edges vertices t).length []
      (loopCutCandidates startEdge edges vertices t).head?
    rw [if_neg hz]
    simp only [hpts]
    refine ⟨_, rfl, ?_, ?_⟩
    · intro hc
      exact absurd (by rw [hc]; rfl) hz
    · simp

/-- C4 witness: on the two-triangle strip, the start edge resolves and the
faces table is index-consistent. -/
theorem findLoopCutPath_no_throw_isClosed_witness :
    ∃ path, findLoopCutPath stripStartEdge stripEdges stripFaces
        stripVertices (1/2) = .ok path ∧
      (loopCutCandidates stripStartEdge stripEdges stripVertices (1/2) = [] →
        path = ⟨[], false⟩) ∧
      (path.isClosed = true ↔
        (path.points.length =
            (loopCutCandidates stripStartEdge stripEdges stripVertices
              (1/2)).length ∧
          2 < path.points.length)) :=
  findLoopCutPath_no_throw_isClosed stripStartEdge stripEdges stripFaces
    stripVertices (1/2) rfl rfl (by decide)

lemma mapGet_eq_none_iff {κ β : Type} [DecidableEq κ] (k : κ) :
    ∀ (m : List (κ × β)), mapGet k m = none ↔ k ∉ m.map Prod.fst
  | [] => by simp [mapGet]
  | (k0, v0) :: rest => by
    rw [mapGet]
    split
    · next heq => simp [heq]
    · next hne =>
      rw [mapGet_eq_none_iff k rest]
      simp only [List.map_cons, List.mem_cons]
      constructor
      · intro h hc
        rcases hc with hc | hc
        · exact hne hc.symm
        · exact h hc
      · intro h hc
        exact h (Or.inr hc)

lemma mapGet_isSome_of_mem_fst {κ β : Type} [DecidableEq κ] (k : κ)
    (m : List (κ × β)) (h : k ∈ m.map Prod.fst) :
    ∃ v, mapGet k m = some v := by
  cases hm : mapGet k m with
  | none => exact absurd h ((mapGet_eq_none_iff k m).mp hm)
  | some v => exact ⟨v, rfl⟩

lemma mapGet_mem_fst {κ β : Type} [DecidableEq κ] (k : κ) (v : β)
    (m : List (κ × β)) (h : mapGet k m = some v) : k ∈ m.map Prod.fst :=
  List.mem_map.mpr ⟨(k, v), mapGet_mem k v m h, rfl⟩

lemma mapGet_append_left {κ β : Type} [DecidableEq κ] (k : κ) (v : β) :
    ∀ (m1 m2 : List (κ × β)), mapGet k m1 = some v →
      mapGet k (m1 ++ m2) = some v
  | [], _, h => by simp [mapGet] at h
  | (k0, v0) :: rest, m2, h => by
    rw [mapGet] at h
    rw [List.cons_append, mapGet]
    split at h
    · next heq => rw [if_pos heq]; exact h
    · next hne => rw [if_neg hne]; exact mapGet_append_left k v rest m2 h

lemma mapGet_append_right {κ β : Type} [DecidableEq κ] (k : κ) :
    ∀ (m1 m2 : List (κ × β)), k ∉ m1.map Prod.fst →
      mapGet k (m1 ++ m2) = mapGet k m2
  | [], _, _ => rfl
  | (k0, v0) :: rest, m2, h => by
    have h1 : k0 ≠ k := fun hc => h (by simp [hc])
    have h2 : k ∉ rest.map Prod.fst := fun hc => h (by simp [hc])
    rw [List.cons_append, mapGet, if_neg h1]
    exact mapGet_append_right k rest m2 h2

lemma addOriginalIndex_length (uv : List VertexData) (j i : ℕ) :
    (addOriginalIndex uv j i).length = uv.length := by
  unfold addOriginalIndex
  split
  · rfl
  · split
    · rfl
    · exact List.length_set uv j _

lemma oiMem_addOriginalIndex (uv : List VertexData) (j0 i : ℕ)
    (v0 : VertexData) (hj0 : uv[j0]? = some v0) (j e : ℕ) :
    oiMem (addOriginalIndex uv j0 i) j e ↔
      oiMem uv j e ∨ (j = j0 ∧ e = i) := by
  unfold addOriginalIndex
  rw [hj0]
  simp only
  by_cases hmem : i ∈ v0.originalIndices
  · rw [if_pos hmem]
    constructor
    · exact Or.inl
    · rintro (h | ⟨rfl, rfl⟩)
      · exact h
      · exact ⟨v0, hj0, hmem⟩
  · rw [if_neg hmem]
    unfold oiMem
    rcases eq_or_ne j j0 with rfl | hne
    · constructor
      · rintro ⟨v, hv, hev⟩
        rw [List.getElem?_set_self', hj0] at hv
        have hveq : { v0 with
            originalIndices := v0.originalIndices ++ [i] } = v := by
          simpa using hv
        cases hveq
        simp only [List.mem_append, List.mem_singleton] at hev
        rcases hev with hev | rfl
        · exact Or.inl ⟨v0, hj0, hev⟩
        · exact Or.inr ⟨rfl, rfl⟩
      · rintro (⟨v, hv, hev⟩ | ⟨-, hei⟩)
        · rw [hj0] at hv
          obtain rfl : v0 = v := Option.some.inj hv
          refine ⟨{ v0 with originalIndices := v0.originalIndices ++ [i] },
            ?_, ?_⟩
          · rw [List.getElem?_set_self', hj0]
            rfl
          · simp [hev]
        · subst hei
          refine ⟨{ v0 with originalIndices := v0.originalIndices ++ [e] },
            ?_, ?_⟩
          · rw [List.getElem?_set_self', hj0]
            rfl
          · simp
    · rw [List.getElem?_set_ne (fun hc => hne hc.symm)]
      constructor
      · exact Or.inl
      · rintro (h | ⟨rfl, rfl⟩)
        · exact h
        · exact absurd rfl hne

lemma extractPass2_mem (vim : List (ℕ × ℕ)) :
    ∀ (l : List ℕ) (uv : List VertexData),
      (∀ pr ∈ vim, pr.2 < uv.length) →
      ((l.foldl (fun acc i =>
          match mapGet i vim with
          | some j => addOriginalIndex acc j i
          | none => acc) uv).length = uv.length ∧
      ∀ j e, oiMem (l.foldl (fun acc i =>
          match mapGet i vim with
          | some j => addOriginalIndex acc j i
          | none => acc) uv) j e ↔
        (oiMem uv j e ∨ (e ∈ l ∧ mapGet e vim = some j)))
  | [], uv, _ => ⟨rfl, by simp⟩
  | i :: l, uv, hvals => by
    rw [List.foldl_cons]
    cases hmi : mapGet i vim with
    | none =>
      simp only
      obtain ⟨ihlen, ihmem⟩ := extractPass2_mem vim l uv hvals
      refine ⟨ihlen, fun j e => ?_⟩
      rw [ihmem j e]
      constructor
      · rintro (h | ⟨hel, hme⟩)
        · exact Or.inl h
        · exact Or.inr ⟨List.mem_cons_of_mem i hel, hme⟩
      · rintro (h | ⟨hel, hme⟩)
        · exact Or.inl h
        · rcases List.mem_cons.mp hel with rfl | hel'
          · rw [hmi] at hme
            cases hme
          · exact Or.inr ⟨hel', hme⟩
    | some j0 =>
      simp only
      have hj0lt : j0 < uv.length := hvals (i, j0) (mapGet_mem i j0 vim hmi)
      have hv0e : ∃ v0, uv[j0]? = some v0 := by
        rw [List.getElem?_eq_getElem hj0lt]
        exact ⟨_, rfl⟩
      obtain ⟨v0, hv0⟩ := hv0e
      have hvals' : ∀ pr ∈ vim, pr.2 < (addOriginalIndex uv j0 i).length := by
        rw [addOriginalIndex_length]
        exact hvals
      obtain ⟨ihlen, ihmem⟩ :=
        extractPass2_mem vim l (addOriginalIndex uv j0 i) hvals'
      refine ⟨by rw [ihlen, addOriginalIndex_length], fun j e => ?_⟩
      rw [ihmem j e, oiMem_addOriginalIndex uv j0 i v0 hv0 j e]
      constructor
      · rintro ((h | ⟨rfl, rfl⟩) | ⟨hel, hme⟩)
        · exact Or.inl h
        · exact Or.inr ⟨List.mem_cons_self _ _, hmi⟩
        · exact Or.inr ⟨List.mem_cons_of_mem i hel, hme⟩
      · rintro (h | ⟨hel, hme⟩)
        · exact Or.inl (Or.inl h)
        · rcases List.mem_cons.mp hel with rfl | hel'
          · have hjj : j0 = j := by
              rw [hmi] at hme
              exact Option.some.inj hme
            exact Or.inl (Or.inr ⟨hjj.symm, rfl⟩)
          · exact Or.inr ⟨hel', hme⟩

lemma extractPass1_inv :
    ∀ (rest preKeys : List Vec3) (n : ℕ) (uv : List VertexData)
      (vim : List (ℕ × ℕ)) (pti : List (Vec3 × ℕ)),
      uv.length = preKeys.toFinset.card →
      vim.map Prod.fst = List.range n →
      (∀ pr ∈ vim, pr.2 < uv.length) →
      (∀ j, j < uv.length → ∃ i0, mapGet i0 vim = some j) →
      (∀ j e, oiMem uv j e → mapGet e vim = some j) →
      (∀ key, (∃ v, mapGet key pti = some v) ↔ key ∈ preKeys) →
      (∀ kj ∈ pti, kj.2 < uv.length) →
      ((extractPass1 rest n uv vim pti).1.length =
          (preKeys ++ rest.map positionKey).toFinset.card ∧
        (extractPass1 rest n uv vim pti).2.map Prod.fst =
          List.range (n + rest.length) ∧
        (∀ pr ∈ (extractPass1 rest n uv vim pti).2,
          pr.2 < (extractPass1 rest n uv vim pti).1.length) ∧
        (∀ j, j < (extractPass1 rest n uv vim pti).1.length →
          ∃ i0, mapGet i0 (extractPass1 rest n uv vim pti).2 = some j) ∧
        (∀ j e, oiMem (extractPass1 rest n uv vim pti).1 j e →
          mapGet e (extractPass1 rest n uv vim pti).2 = some j))
  | [], preKeys, n, uv, vim, pti, h1, h2, h3, h4, h5, _, _ => by
    rw [extractPass1]
    refine ⟨by simpa using h1, by simpa using h2, h3, h4, h5⟩
  | p :: rest, preKeys, n, uv, vim, pti, h1, h2, h3, h4, h5, h6, h7 => by
    rw [extractPass1]
    cases hk : mapGet (positionKey p) pti with
    | some j =>
      simp only
      have hm : positionKey p ∈ preKeys := (h6 _).mp ⟨j, hk⟩
      have hh1 : uv.length = (preKeys ++ [positionKey p]).toFinset.card := by
        rw [h1]
        congr 1
        ext x
        simp only [List.toFinset_append, Finset.mem_union, List.mem_toFinset,
          List.toFinset_cons, List.toFinset_nil, insert_emptyc_eq,
          Finset.mem_insert, Finset.not_mem_empty, or_false,
          Finset.mem_singleton]
        constructor
        · exact Or.inl
        · rintro (h | rfl)
          · exact h
          · exact hm
      have hh2 : (vim ++ [(n, j)]).map Prod.fst = List.range (n + 1) := by
        simp [h2, List.range_succ]
      have hh3 : ∀ pr ∈ vim ++ [(n, j)], pr.2 < uv.length := by
        intro pr hpr
        rcases List.mem_append.mp hpr with hpr | hpr
        · exact h3 pr hpr
        · obtain rfl : pr = (n, j) := by simpa using hpr
          exact h7 (positionKey p, j) (mapGet_mem _ _ _ hk)
      have hh4 : ∀ j', j' < uv.length →
          ∃ i0, mapGet i0 (vim ++ [(n, j)]) = some j' := by
        intro j' hj'
        obtain ⟨i0, hi0⟩ := h4 j' hj'
        exact ⟨i0, mapGet_append_left _ _ _ _ hi0⟩
      have hh5 : ∀ j' e, oiMem uv j' e →
          mapGet e (vim ++ [(n, j)]) = some j' :=
        fun j' e hoi => mapGet_append_left _ _ _ _ (h5 j' e hoi)
      have hh6 : ∀ key, (∃ v, mapGet key pti = some v) ↔
          key ∈ preKeys ++ [positionKey p] := by
        intro key
        rw [h6 key]
        simp only [List.mem_append, List.mem_singleton]
        constructor
        · exact Or.inl
        · rintro (h | rfl)
          · exact h
          · exact hm
      obtain ⟨c1, c2, c3, c4, c5⟩ :=
        extractPass1_inv rest (preKeys ++ [positionKey p]) (n + 1) uv
          (vim ++ [(n, j)]) pti hh1 hh2 hh3 hh4 hh5 hh6 h7
      refine ⟨?_, ?_, c3, c4, c5⟩
      · rw [c1]
        congr 2
        rw [List.map_cons, List.append_assoc]
        rfl
      · rw [c2]
        congr 1
        simp only [List.length_cons]
        omega
    | none =>
      simp only
      have hnm : positionKey p ∉ preKeys := by
        rw [← h6 (positionKey p)]
        rintro ⟨v, hv⟩
        rw [hk] at hv
        cases hv
      have hh1 : (uv ++ [(⟨uv.length, p, false, [n]⟩ : VertexData)]).length =
          (preKeys ++ [positionKey p]).toFinset.card := by
        have hset : (preKeys ++ [positionKey p]).toFinset =
            insert (positionKey p) preKeys.toFinset := by
          ext x
          simp only [List.toFinset_append, Finset.mem_union,
            List.mem_toFinset, List.toFinset_cons, List.toFinset_nil,
            insert_emptyc_eq, Finset.mem_insert, Finset.not_mem_empty,
            or_false, Finset.mem_singleton]
          tauto
        rw [hset, Finset.card_insert_of_not_mem
          (fun hc => hnm (List.mem_toFinset.mp hc))]
        simp [h1]
      have hh2 : (vim ++ [(n, uv.length)]).map Prod.fst =
          List.range (n + 1) := by
        simp [h2, List.range_succ]
      have hh3 : ∀ pr ∈ vim ++ [(n, uv.length)],
          pr.2 < (uv ++ [(⟨uv.length, p, false, [n]⟩ : VertexData)]).length := by
        intro pr hpr
        rcases List.mem_append.mp hpr with hpr | hpr
        · have := h3 pr hpr
          simp only [List.length_append, List.length_cons, List.length_nil]
          omega
        · obtain rfl : pr = (n, uv.length) := by simpa using hpr
          simp
      have hh4 : ∀ j', j' < (uv ++ [(⟨uv.length, p, false, [n]⟩ : VertexData)]).length →
          ∃ i0, mapGet i0 (vim ++ [(n, uv.length)]) = some j' := by
        intro j' hj'
        simp only [List.length_append, List.length_cons,
          List.length_nil] at hj'
        have hj'' : j' < uv.length ∨ j' = uv.length := by omega
        rcases hj'' with hlt | heq
        · obtain ⟨i0, hi0⟩ := h4 j' hlt
          exact ⟨i0, mapGet_append_left _ _ _ _ hi0⟩
        · refine ⟨n, ?_⟩
          rw [mapGet_append_right n vim _ (by simp [h2])]
          simp [mapGet, heq]
      have hh5 : ∀ j' e, oiMem (uv ++ [(⟨uv.length, p, false, [n]⟩ : VertexData)]) j' e →
          mapGet e (vim ++ [(n, uv.length)]) = some j' := by
        intro j' e hoi
        obtain ⟨v, hv, hev⟩ := hoi
        rw [List.getElem?_append] at hv
        by_cases hlt : j' < uv.length
        · rw [if_pos hlt] at hv
          exact mapGet_append_left _ _ _ _ (h5 j' e ⟨v, hv, hev⟩)
        · rw [if_neg hlt] at hv
          have hd : j' - uv.length = 0 := by
            by_contra hd
            rw [List.getElem?_eq_none_iff.mpr (by simp; omega)] at hv
            cases hv
          rw [hd] at hv
          have hveq : v = (⟨uv.length, p, false, [n]⟩ : VertexData) := by
            simpa using hv.symm
          subst hveq
          obtain rfl : e = n := by simpa using hev
          have hj'eq : j' = uv.length := by omega
          rw [mapGet_append_right e vim _ (by simp [h2])]
          simp [mapGet, hj'eq]
      have hh6 : ∀ key,
          (∃ v, mapGet key (pti ++ [(positionKey p, uv.length)]) = some v) ↔
          key ∈ preKeys ++ [positionKey p] := by
        intro key
        constructor
        · rintro ⟨v, hv⟩
          cases hg : mapGet key pti with
          | some w => exact List.mem_append_left _ ((h6 key).mp ⟨w, hg⟩)
          | none =>
            rw [mapGet_append_right key pti _
              ((mapGet_eq_none_iff key pti).mp hg)] at hv
            rw [mapGet] at hv
            split at hv
            · next heq => exact List.mem_append_right _ (by simp [heq])
            · simp [mapGet] at hv
        · intro hkey
          rcases List.mem_append.mp hkey with hkey | hkey
          · obtain ⟨v, hv⟩ := (h6 key).mpr hkey
            exact ⟨v, mapGet_append_left _ _ _ _ hv⟩
          · obtain rfl : key = positionKey p := by simpa using hkey
            refine ⟨uv.length, ?_⟩
            rw [mapGet_append_right (positionKey p) pti _
              ((mapGet_eq_none_iff (positionKey p) pti).mp hk)]
            simp [mapGet]
      have hh7 : ∀ kj ∈ pti ++ [(positionKey p, uv.length)],
          kj.2 < (uv ++ [(⟨uv.length, p, false, [n]⟩ : VertexData)]).length := by
        intro kj hkj
        rcases List.mem_append.mp hkj with hkj | hkj
        · have := h7 kj hkj
          simp only [List.length_append, List.length_cons, List.length_nil]
          omega
        · obtain rfl : kj = (positionKey p, uv.length) := by simpa using hkj
          simp
      obtain ⟨c1, c2, c3, c4, c5⟩ :=
        extractPass1_inv rest (preKeys ++ [positionKey p]) (n + 1)
          (uv ++ [(⟨uv.length, p, false, [n]⟩ : VertexData)])
          (vim ++ [(n, uv.length)]) (pti ++ [(positionKey p, uv.length)])
          hh1 hh2 hh3 hh4 hh5 hh6 hh7
      refine ⟨?_, ?_, c3, c4, c5⟩
      · rw [c1]
        congr 2
        rw [List.map_cons, List.append_assoc]
        rfl
      · rw [c2]
        congr 1
        simp only [List.length_cons]
        omega

/-- C2: `extractVertices` returns one entry per distinct rounded position
(`u` entries for `u` distinct positions under 1e-6 rounding), every entry's
`originalIndices` is non-empty, the `originalIndices` are pairwise disjoint,
and together they cover exactly the raw indices `0..k-1`. -/
theorem extractVertices_dedup_partition (g : Geometry) (ps : List Vec3)
    (hpos : g.position = some ps) :
    (extractVertices g).length = (ps.map positionKey).toFinset.card ∧
    (∀ v ∈ extractVertices g, v.originalIndices ≠ []) ∧
    (∀ i, i < ps.length ↔ ∃ j, ∃ h : j < (extractVertices g).length,
      i ∈ ((extractVertices g).get ⟨j, h⟩).originalIndices) ∧
    (∀ j1 j2 (h1 : j1 < (extractVertices g).length)
        (h2 : j2 < (extractVertices g).length) (i : ℕ),
      i ∈ ((extractVertices g).get ⟨j1, h1⟩).originalIndices →
      i ∈ ((extractVertices g).get ⟨j2, h2⟩).originalIndices → j1 = j2) := by
  obtain ⟨I1, I2, I3, I4, I5⟩ :=
    extractPass1_inv ps [] 0 [] [] [] (by simp) (by simp) (by simp)
      (by simp) (by rintro j e ⟨v, hv, -⟩; simp at hv)
      (by intro key; simp [mapGet]) (by simp)
  have hfn : extractVertices g =
      (List.range ps.length).foldl (fun acc i =>
        match mapGet i (extractPass1 ps 0 [] [] []).2 with
        | some j => addOriginalIndex acc j i
        | none => acc) (extractPass1 ps 0 [] [] []).1 := by
    unfold extractVertices extractVerticesWithMappings
    rw [hpos]
    rfl
  obtain ⟨P2len, P2mem⟩ :=
    extractPass2_mem (extractPass1 ps 0 [] [] []).2 (List.range ps.length)
      (extractPass1 ps 0 [] [] []).1 I3
  rw [← hfn] at P2len P2mem
  have hlen : (extractVertices g).length =
      (ps.map positionKey).toFinset.card := by
    rw [P2len]
    simpa using I1
  have hmemIff : ∀ j e, oiMem (extractVertices g) j e ↔
      (oiMem (extractPass1 ps 0 [] [] []).1 j e ∨
        (e ∈ List.range ps.length ∧
          mapGet e (extractPass1 ps 0 [] [] []).2 = some j)) := P2mem
  have hlookup : ∀ j e, oiMem (extractVertices g) j e →
      mapGet e (extractPass1 ps 0 [] [] []).2 = some j := by
    intro j e hoi
    rcases (hmemIff j e).mp hoi with h | ⟨-, h⟩
    · exact I5 j e h
    · exact h
  have hget_oiMem : ∀ j (h : j < (extractVertices g).length) e,
      e ∈ ((extractVertices g).get ⟨j, h⟩).originalIndices ↔
        oiMem (extractVertices g) j e := by
    intro j h e
    constructor
    · intro he
      exact ⟨(extractVertices g).get ⟨j, h⟩,
        by rw [List.getElem?_eq_getElem h]; rfl, he⟩
    · rintro ⟨v, hv, hev⟩
      rw [List.getElem?_eq_getElem h] at hv
      obtain rfl : (extractVertices g).get ⟨j, h⟩ = v := by
        rw [List.get_eq_getElem]
        exact Option.some.inj hv
      exact hev
  have hvimfst : (extractPass1 ps 0 [] [] []).2.map Prod.fst =
      List.range ps.length := by
    simpa using I2
  refine ⟨hlen, ?_, ?_, ?_⟩
  · intro v hv
    obtain ⟨⟨j, hj⟩, rfl⟩ := List.mem_iff_get.mp hv
    obtain ⟨i0, hi0⟩ := I4 j (by rw [← P2len]; exact hj)
    have hi0range : i0 ∈ List.range ps.length := by
      rw [← hvimfst]
      exact mapGet_mem_fst _ _ _ hi0
    have hoi : oiMem (extractVertices g) j i0 :=
      (hmemIff j i0).mpr (Or.inr ⟨hi0range, hi0⟩)
    exact List.ne_nil_of_mem ((hget_oiMem j hj i0).mpr hoi)
  · intro i
    constructor
    · intro hi
      obtain ⟨j, hj⟩ := mapGet_isSome_of_mem_fst i
        (extractPass1 ps 0 [] [] []).2
        (by rw [hvimfst]; exact List.mem_range.mpr hi)
      have hjlt : j < (extractVertices g).length := by
        rw [P2len]
        exact I3 (i, j) (mapGet_mem _ _ _ hj)
      refine ⟨j, hjlt, (hget_oiMem j hjlt i).mpr ?_⟩
      exact (hmemIff j i).mpr (Or.inr ⟨List.mem_range.mpr hi, hj⟩)
    · rintro ⟨j, hj, hmem⟩
      have hl := hlookup j i ((hget_oiMem j hj i).mp hmem)
      have : i ∈ List.range ps.length := by
        rw [← hvimfst]
        exact mapGet_mem_fst _ _ _ hl
      exact List.mem_range.mp this
  · intro j1 j2 h1 h2 i hm1 hm2
    have hl1 := hlookup j1 i ((hget_oiMem j1 h1 i).mp hm1)
    have hl2 := hlookup j2 i ((hget_oiMem j2 h2 i).mp hm2)
    rw [hl1] at hl2
    exact Option.some.inj hl2

/-- C2 witness: three raw vertices at two distinct positions. -/
theorem extractVertices_dedup_partition_witness :
    (extractVertices dedupGeometry).length =
      (([⟨0, 0, 0⟩, ⟨1, 0, 0⟩, ⟨0, 0, 0⟩] :
        List Vec3).map positionKey).toFinset.card ∧
    (∀ v ∈ extractVertices dedupGeometry, v.originalIndices ≠ []) ∧
    (∀ i, i < ([⟨0, 0, 0⟩, ⟨1, 0, 0⟩, ⟨0, 0, 0⟩] : List Vec3).length ↔
      ∃ j, ∃ h : j < (extractVertices dedupGeometry).length,
        i ∈ ((extractVertices dedupGeometry).get ⟨j, h⟩).originalIndices) ∧
    (∀ j1 j2 (h1 : j1 < (extractVertices dedupGeometry).length)
        (h2 : j2 < (extractVertices dedupGeometry).length) (i : ℕ),
      i ∈ ((extractVertices dedupGeometry).get ⟨j1, h1⟩).originalIndices →
      i ∈ ((extractVertices dedupGeometry).get ⟨j2, h2⟩).originalIndices →
      j1 = j2) :=
  extractVertices_dedup_partition dedupGeometry
    [⟨0, 0, 0⟩, ⟨1, 0, 0⟩, ⟨0, 0, 0⟩] rfl

/-- C1 witness: a loop cut with one path point on edge `(0,1)` of a single
triangle succeeds with one appended vertex. -/
theorem executeLoopCut_retriangulation_witness :
    (∃ r, executeLoopCut triGeometry
        ⟨[⟨⟨1/2, 0, 0⟩, 0, 0, 1, 1/2⟩], false⟩ [] [] = .ok (r, triGeometry) ∧
      r.geometry.position =
        some ([⟨0, 0, 0⟩, ⟨1, 0, 0⟩, ⟨0, 1, 0⟩] ++
          ([⟨⟨1/2, 0, 0⟩, 0, 0, 1, 1/2⟩] :
            List LoopCutPoint).map (fun p => p.position))) := by
  obtain ⟨⟨r, hok, hp, hnv, hidx⟩, henum⟩ :=
    executeLoopCut_retriangulation triGeometry
      [⟨0, 0, 0⟩, ⟨1, 0, 0⟩, ⟨0, 1, 0⟩]
      ⟨[⟨⟨1/2, 0, 0⟩, 0, 0, 1, 1/2⟩], false⟩ [] [] rfl (by decide)
  exact ⟨r, hok, hp⟩

lemma mapSet_keys {κ β : Type} [DecidableEq κ] (k : κ) (v : β) :
    ∀ (m : List (κ × β)), (mapSet m k v).map Prod.fst =
      if k ∈ m.map Prod.fst then m.map Prod.fst
      else m.map Prod.fst ++ [k]
  | [] => by simp [mapSet]
  | (k0, v0) :: rest => by
    rw [mapSet]
    split
    · next heq =>
      subst heq
      simp
    · next hne =>
      have hne' : k ≠ k0 := fun h => hne h.symm
      by_cases hmem : k ∈ rest.map Prod.fst
      · rw [if_pos (by simp [hmem])]
        rw [List.map_cons, List.map_cons, mapSet_keys k v rest, if_pos hmem]
      · rw [if_neg (by simp [hmem, hne'])]
        rw [List.map_cons, List.map_cons, mapSet_keys k v rest, if_neg hmem]
        simp

lemma mapSet_nodup_keys {κ β : Type} [DecidableEq κ] (k : κ) (v : β)
    (m : List (κ × β)) (h : (m.map Prod.fst).Nodup) :
    ((mapSet m k v).map Prod.fst).Nodup := by
  rw [mapSet_keys]
  by_cases hmem : k ∈ m.map Prod.fst
  · rw [if_pos hmem]
    exact h
  · rw [if_neg hmem]
    simp [List.nodup_append, h, hmem]

lemma mapGet_of_mem_nodup {κ β : Type} [DecidableEq κ] :
    ∀ (m : List (κ × β)), (m.map Prod.fst).Nodup →
      ∀ p ∈ m, mapGet p.1 m = some p.2
  | [], _, p, hp => by simp at hp
  | (k0, v0) :: rest, h, p, hp => by
    rw [List.map_cons, List.nodup_cons] at h
    rcases List.mem_cons.mp hp with rfl | hmem
    · simp [mapGet]
    · have hne : k0 ≠ p.1 :=
        fun he => h.1 (he ▸ List.mem_map.mpr ⟨p, hmem, rfl⟩)
      rw [mapGet, if_neg hne]
      exact mapGet_of_mem_nodup rest h.2 p hmem

lemma mapGet_mapSet_self {κ β : Type} [DecidableEq κ] (k : κ) (v : β) :
    ∀ (m : List (κ × β)), mapGet k (mapSet m k v) = some v
  | [] => by simp [mapSet, mapGet]
  | (k0, v0) :: rest => by
    rw [mapSet]
    split
    · next heq =>
      rw [mapGet, if_pos heq]
    · next hne =>
      rw [mapGet, if_neg hne]
      exact mapGet_mapSet_self k v rest

lemma mapGet_mapSet_ne {κ β : Type} [DecidableEq κ] (k k' : κ) (v : β)
    (hne : k' ≠ k) :
    ∀ (m : List (κ × β)), mapGet k' (mapSet m k v) = mapGet k' m
  | [] => by simp [mapSet, mapGet, Ne.symm hne]
  | (k0, v0) :: rest => by
    rw [mapSet]
    split
    · next heq =>
      subst heq
      rw [mapGet, mapGet, if_neg (Ne.symm hne), if_neg (Ne.symm hne)]
    · next h0 =>
      by_cases hk : k0 = k'
      · rw [mapGet, mapGet, if_pos hk, if_pos hk]
      · rw [mapGet, mapGet, if_neg hk, if_neg hk]
        exact mapGet_mapSet_ne k k' v hne rest

lemma bumpDegree_getD (m : List (ℕ × ℕ)) (v w : ℕ) :
    (mapGet w (bumpDegree m v)).getD 0 =
      (mapGet w m).getD 0 + (if v = w then 1 else 0) := by
  by_cases h : v = w
  · subst h
    rw [bumpDegree, mapGet_mapSet_self]
    simp
  · rw [bumpDegree, mapGet_mapSet_ne v w _ (Ne.symm h) m, if_neg h]
    omega

lemma bumpDegree_none (m : List (ℕ × ℕ)) (v w : ℕ) :
    mapGet w (bumpDegree m v) = none ↔ (mapGet w m = none ∧ w ≠ v) := by
  by_cases h : w = v
  · subst h
    simp [bumpDegree, mapGet_mapSet_self]
  · rw [bumpDegree, mapGet_mapSet_ne v w _ h m]
    simp [h]

lemma degreesAux_getD (v : ℕ) :
    ∀ (es : List EdgeData) (m : List (ℕ × ℕ)),
      (mapGet v (es.foldl
        (fun m e => bumpDegree (bumpDegree m e.v1) e.v2) m)).getD 0 =
        (mapGet v m).getD 0 + degreeOf v es
  | [], m => by simp [degreeOf]
  | e :: rest, m => by
    rw [List.foldl_cons, degreesAux_getD v rest, bumpDegree_getD,
      bumpDegree_getD, degreeOf]
    by_cases h1 : e.v1 = v <;> by_cases h2 : e.v2 = v <;>
      simp [h1, h2] <;> omega

lemma degreesAux_none (v : ℕ) :
    ∀ (es : List EdgeData) (m : List (ℕ × ℕ)),
      mapGet v (es.foldl
        (fun m e => bumpDegree (bumpDegree m e.v1) e.v2) m) = none ↔
        (mapGet v m = none ∧ degreeOf v es = 0)
  | [], m => by simp [degreeOf]
  | e :: rest, m => by
    rw [List.foldl_cons, degreesAux_none v rest, degreeOf]
    constructor
    · rintro ⟨hnone, hdeg⟩
      rw [bumpDegree_none, bumpDegree_none] at hnone
      obtain ⟨⟨hm, h1⟩, h2⟩ := hnone
      refine ⟨hm, ?_⟩
      rw [if_neg (fun h => h1 h.symm), if_neg (fun h => h2 h.symm)]
      omega
    · rintro ⟨hm, hdeg⟩
      have h1 : ¬(e.v1 = v) := by
        intro h
        simp [h] at hdeg
      have h2 : ¬(e.v2 = v) := by
        intro h
        simp [h] at hdeg
      rw [if_neg h1, if_neg h2] at hdeg
      refine ⟨?_, by omega⟩
      rw [bumpDegree_none, bumpDegree_none]
      exact ⟨⟨hm, fun h => h1 h.symm⟩, fun h => h2 h.symm⟩

lemma edgeLoopDegrees_getD (sel : List EdgeData) (v : ℕ) :
    (mapGet v (edgeLoopDegrees sel)).getD 0 = degreeOf v sel := by
  rw [edgeLoopDegrees, degreesAux_getD]
  simp [mapGet]

lemma edgeLoopDegrees_none (sel : List EdgeData) (v : ℕ) :
    mapGet v (edgeLoopDegrees sel) = none ↔ degreeOf v sel = 0 := by
  rw [edgeLoopDegrees, degreesAux_none]
  simp [mapGet]

lemma edgeLoopDegrees_some (sel : List EdgeData) (v : ℕ)
    (h : degreeOf v sel ≠ 0) :
    mapGet v (edgeLoopDegrees sel) = some (degreeOf v sel) := by
  cases hm : mapGet v (edgeLoopDegrees sel) with
  | none => exact absurd ((edgeLoopDegrees_none sel v).mp hm) h
  | some d =>
    have hd := edgeLoopDegrees_getD sel v
    rw [hm] at hd
    simp at hd
    rw [hd]

lemma degreesAux_nodup :
    ∀ (es : List EdgeData) (m : List (ℕ × ℕ)),
      (m.map Prod.fst).Nodup →
      ((es.foldl (fun m e =>
        bumpDegree (bumpDegree m e.v1) e.v2) m).map Prod.fst).Nodup
  | [], _, h => h
  | _ :: rest, _, h =>
    degreesAux_nodup rest _
      (mapSet_nodup_keys _ _ _ (mapSet_nodup_keys _ _ _ h))

lemma edgeLoopDegrees_nodup (sel : List EdgeData) :
    ((edgeLoopDegrees sel).map Prod.fst).Nodup :=
  degreesAux_nodup sel [] (by simp)

lemma edgeLoopDegrees_entry (sel : List EdgeData) (p : ℕ × ℕ)
    (hp : p ∈ edgeLoopDegrees sel) :
    p.2 = degreeOf p.1 sel ∧ degreeOf p.1 sel ≠ 0 := by
  have hget := mapGet_of_mem_nodup _ (edgeLoopDegrees_nodup sel) p hp
  have hd := edgeLoopDegrees_getD sel p.1
  rw [hget] at hd
  simp at hd
  refine ⟨hd, ?_⟩
  intro h0
  rw [(edgeLoopDegrees_none sel p.1).mpr h0] at hget
  cases hget

/-- C9: `validateEdgeLoop` (modelled from the spec; its implementation is
code of the repository not under `src/`) never throws: every selection
yields a result, which is exactly one of the four enumerated errors under
the claimed conditions — "No edges selected" for 0 selected edges, "Need at
least 3 edges" for 1 or 2, "Vertex X connected to Y edges" when some vertex
of the induced subgraph has degree other than 2 (the degree probe fires
exactly when such a vertex exists), "Edges do not form a closed loop" when
the walk fails to return to the start after exactly
`selectedEdgeIndices.length` edges — and otherwise `isValid = true` with
the ordered vertex cycle of the walk. -/
theorem validateEdgeLoop_never_throws_four_errors (sei : List ℕ)
    (edges : List EdgeData) :
    (sei.length = 0 →
      validateEdgeLoop sei edges = ⟨false, [], some "No edges selected"⟩) ∧
    (sei.length = 1 ∨ sei.length = 2 →
      validateEdgeLoop sei edges =
        ⟨false, [], some "Need at least 3 edges"⟩) ∧
    ((edgeLoopDegrees (selectedEdges sei edges)).find?
        (fun q => q.2 != 2) = none ↔
      ∀ v, degreeOf v (selectedEdges sei edges) = 2 ∨
        degreeOf v (selectedEdges sei edges) = 0) ∧
    (3 ≤ sei.length →
      (∀ p, (edgeLoopDegrees (selectedEdges sei edges)).find?
          (fun q => q.2 != 2) = some p →
        degreeOf p.1 (selectedEdges sei edges) = p.2 ∧ p.2 ≠ 2 ∧
        validateEdgeLoop sei edges = ⟨false, [],
          some ("Vertex " ++ toString p.1 ++ " connected to " ++
            toString p.2 ++ " edges")⟩) ∧
      ((edgeLoopDegrees (selectedEdges sei edges)).find?
          (fun q => q.2 != 2) = none →
        ((loopWalk sei edges).1.length = sei.length ∧
            (loopWalk sei edges).2 =
              startVertex (selectedEdges sei edges) →
          validateEdgeLoop sei edges =
            ⟨true, (loopWalk sei edges).1, none⟩) ∧
        (¬((loopWalk sei edges).1.length = sei.length ∧
            (loopWalk sei edges).2 =
              startVertex (selectedEdges sei edges)) →
          validateEdgeLoop sei edges =
            ⟨false, [], some "Edges do not form a closed loop"⟩))) := by
  refine ⟨?_, ?_, ?_, ?_⟩
  · intro h0
    simp [validateEdgeLoop, h0]
  · intro h12
    have h0 : ¬ sei.length = 0 := by omega
    have hlt : sei.length < 3 := by omega
    simp only [validateEdgeLoop, if_neg h0, if_pos hlt]
  · constructor
    · intro hnone v
      by_cases h0 : degreeOf v (selectedEdges sei edges) = 0
      · exact Or.inr h0
      · left
        have hsome := edgeLoopDegrees_some _ v h0
        have hmem := mapGet_mem _ _ _ hsome
        have hx := List.find?_eq_none.mp hnone _ hmem
        simpa using hx
    · intro hall
      rw [List.find?_eq_none]
      intro p hp
      obtain ⟨hdeg, hne0⟩ := edgeLoopDegrees_entry _ p hp
      rcases hall p.1 with h2 | h0
      · simp [hdeg, h2]
      · exact absurd h0 hne0
  · intro h3
    have h0 : ¬ sei.length = 0 := by omega
    have hlt : ¬ sei.length < 3 := by omega
    refine ⟨?_, ?_⟩
    · intro p hfind
      obtain ⟨hdeg, hne0⟩ :=
        edgeLoopDegrees_entry _ p (List.mem_of_find?_eq_some hfind)
      have hpred := List.find?_some hfind
      have hne2 : p.2 ≠ 2 := by simpa using hpred
      refine ⟨hdeg.symm, hne2, ?_⟩
      simp only [validateEdgeLoop, if_neg h0, if_neg hlt, hfind]
    · intro hnone
      constructor
      · intro hclosed
        simp only [validateEdgeLoop, if_neg h0, if_neg hlt, hnone]
        split
        · rfl
        · next hcond => exact absurd hclosed hcond
      · intro hopen
        simp only [validateEdgeLoop, if_neg h0, if_neg hlt, hnone]
        split
        · next hcond => exact absurd hcond hopen
        · rfl

/-- C9 witness: over the three edges of a triangle, the empty selection and
the one-edge selection yield the first two errors, and selecting all three
edges yields the valid ordered cycle `[0, 1, 2]`. -/
theorem validateEdgeLoop_never_throws_four_errors_witness :
    validateEdgeLoop [] triEdgeTable =
      ⟨false, [], some "No edges selected"⟩ ∧
    validateEdgeLoop [0] triEdgeTable =
      ⟨false, [], some "Need at least 3 edges"⟩ ∧
    validateEdgeLoop [0, 1, 2] triEdgeTable = ⟨true, [0, 1, 2], none⟩ := by
  refine ⟨(validateEdgeLoop_never_throws_four_errors [] triEdgeTable).1 rfl,
    (validateEdgeLoop_never_throws_four_errors [0] triEdgeTable).2.1
      (Or.inl rfl), ?_⟩
  have h := ((validateEdgeLoop_never_throws_four_errors [0, 1, 2]
      triEdgeTable).2.2.2 (by decide)).2 (by decide)
  exact (h.1 (by decide)).trans (by decide)

end MeshEditor
